import Mathlib

/-!
# Verification of the hankerlytics layout engine and tree-state subsystem

A shallow embedding, in Lean 4, of the core tree/data/layout modules of the
hankerlytics repository (a visualizer for threaded discussion trees), together
with proofs and refutations of the specified properties.

Embedding conventions:
* JS numbers used for geometry are modelled as `ℚ` (the layout arithmetic is
  exact in the rationals; the floating-point computation agrees up to rounding).
* JS `Map` objects are modelled as association lists (`List (Nat × _)`) where a
  `set` conses a binding to the front and `lookup` returns the first (latest)
  binding, matching last-write-wins semantics.
* JS `Set` objects of ids are modelled as `List Nat` with membership.
* The mutable `state` object is threaded explicitly: a function that mutates
  state takes and returns a `St` value.
* Asynchronous code is modelled by a step-by-step executor parameterised over a
  scheduling choice sequence (see the fetch-pool section).
* Child lists of tree nodes use a dedicated mutually-inductive list type
  `TList` so that all tree recursions are structural.
-/

/-- A raw remote item record (`src/modules/data.js`, `src/modules/db.js`).
Optional fields model JS fields that may be `undefined`; a numeric field used
in a falsy test additionally treats `0` like `undefined`, which the embedding
makes explicit at each use site. -/
structure Item where
  id : Nat
  author : Option String := none
  time : Option Nat := none
  deleted : Bool := false
  dead : Bool := false
  text : Option String := none
  title : Option String := none
  url : Option String := none
  score : Option Int := none
  kids : List Nat := []
deriving DecidableEq, Repr

/-- JS `value || ""` for an optional numeric field: `undefined` and `0` are
falsy and give the empty string, any other number is stringified. -/
def natOrEmpty : Option Nat → String
  | none => ""
  | some n => if n = 0 then "" else toString n

/-- JS `value || ""` for an optional integer field (used for `score`). -/
def intOrEmpty : Option Int → String
  | none => ""
  | some n => if n = 0 then "" else toString n

/-- JS `flag ? "1" : "0"`. -/
def boolDigit (b : Bool) : String := if b then "1" else "0"

/-- The function `fingerprint` from `src/modules/db.js` lines 181-194: the content
fingerprint of an item, the `"|"`-join of its mutable fields; only the
*length* of `kids` enters, not its elements. -/
def fingerprint (it : Item) : String :=
  String.intercalate "|"
    [ toString it.id
    , it.author.getD ""
    , natOrEmpty it.time
    , boolDigit it.deleted
    , boolDigit it.dead
    , it.text.getD ""
    , it.title.getD ""
    , it.url.getD ""
    , intOrEmpty it.score
    , toString it.kids.length ]

/-- The function `diffThreads` from `src/modules/db.js` lines 196-215.  The old items are
loaded into a map keyed by id (later duplicates overwrite earlier ones, hence
cons-to-front); each new item is counted as added when its id is not in the
map and as updated when its stored fingerprint differs. -/
def diffThreads (oldItems newItems : List Item) : Nat × Nat :=
  let oldMap := oldItems.foldl (fun m it => (it.id, fingerprint it) :: m)
    ([] : List (Nat × String))
  newItems.foldl
    (fun acc it =>
      match oldMap.lookup it.id with
      | none => (acc.1 + 1, acc.2)
      | some prev => if prev ≠ fingerprint it then (acc.1, acc.2 + 1) else acc)
    (0, 0)

/-! ## Facts about the cache diff -/

theorem diffThreads_oldMap_eq (oldItems : List Item)
    (init : List (Nat × String)) :
    oldItems.foldl (fun m it => (it.id, fingerprint it) :: m) init
      = (oldItems.map (fun it => (it.id, fingerprint it))).reverse ++ init := by
  induction oldItems generalizing init with
  | nil => simp
  | cons o rest ih => simp [List.foldl_cons, ih]

theorem lookup_reverse_of_nodup {β : Type} {l : List (Nat × β)}
    (h : (l.map Prod.fst).Nodup) (i : Nat) :
    l.reverse.lookup i = l.lookup i := by
  induction l with
  | nil => simp
  | cons p rest ih =>
    obtain ⟨k, v⟩ := p
    simp only [List.map_cons, List.nodup_cons] at h
    rcases h with ⟨hni, hnd⟩
    rw [List.reverse_cons, List.lookup_append, ih hnd]
    by_cases hi : i = k
    · subst hi
      have hrest : rest.lookup i = none := by
        rw [List.lookup_eq_none_iff]
        intro q hq
        have hmem : q.1 ∈ rest.map Prod.fst := List.mem_map_of_mem _ hq
        have hne : i ≠ q.1 := fun he => hni (by rwa [he])
        simpa using hne
      rw [hrest]
      simp [List.lookup]
    · cases hl : rest.lookup i with
      | none => simp [hl, List.lookup, beq_false_of_ne hi]
      | some v' => simp [hl, List.lookup, beq_false_of_ne hi]

theorem lookup_map_fingerprint (oldItems : List Item) (i : Nat) :
    (oldItems.map (fun it => (it.id, fingerprint it))).lookup i
      = (oldItems.find? (fun o => o.id == i)).map fingerprint := by
  induction oldItems with
  | nil => simp
  | cons o rest ih =>
    by_cases hi : i = o.id
    · subst hi
      simp [List.lookup, List.find?]
    · have hne : (o.id == i) = false := by simp [Ne.symm hi]
      simp [List.lookup, List.find?, hne, beq_false_of_ne hi, ih]

/-- The map `diffThreads` builds from the old items answers lookups like a
first-match search over the old list, when old ids are distinct. -/
theorem diffThreads_lookup (oldItems : List Item)
    (h : (oldItems.map Item.id).Nodup) (i : Nat) :
    (oldItems.foldl (fun m it => (it.id, fingerprint it) :: m)
        ([] : List (Nat × String))).lookup i
      = (oldItems.find? (fun o => o.id == i)).map fingerprint := by
  rw [diffThreads_oldMap_eq, List.append_nil, lookup_reverse_of_nodup,
    lookup_map_fingerprint]
  simpa [Function.comp] using h

/-- Bool predicate: the new item's id does not occur among the old items. -/
def isAddedIn (oldItems : List Item) (it : Item) : Bool :=
  decide (it.id ∉ oldItems.map Item.id)

/-- Bool predicate: the new item's id occurs among the old items and its
content fingerprint differs from that old item's fingerprint. -/
def isUpdatedIn (oldItems : List Item) (it : Item) : Bool :=
  decide (∃ o ∈ oldItems, o.id = it.id ∧ fingerprint o ≠ fingerprint it)

theorem diffThreads_fold_aux (oldItems : List Item)
    (h : (oldItems.map Item.id).Nodup) (newItems : List Item) :
    ∀ a u : Nat,
      newItems.foldl
        (fun acc it =>
          match (oldItems.foldl (fun m it => (it.id, fingerprint it) :: m)
              ([] : List (Nat × String))).lookup it.id with
          | none => (acc.1 + 1, acc.2)
          | some prev =>
              if prev ≠ fingerprint it then (acc.1, acc.2 + 1) else acc)
        (a, u)
      = (a + newItems.countP (isAddedIn oldItems),
         u + newItems.countP (isUpdatedIn oldItems)) := by
  induction newItems with
  | nil => intro a u; simp
  | cons it rest ih =>
    intro a u
    rw [List.foldl_cons]
    rw [diffThreads_lookup oldItems h it.id]
    cases hf : oldItems.find? (fun o => o.id == it.id) with
    | none =>
      have hadd : isAddedIn oldItems it = true := by
        rw [List.find?_eq_none] at hf
        simp only [isAddedIn, decide_eq_true_eq, List.mem_map]
        rintro ⟨o, ho, hoid⟩
        exact (by simpa using hf o ho : ¬o.id = it.id) hoid
      have hupd : isUpdatedIn oldItems it = false := by
        rw [List.find?_eq_none] at hf
        simp only [isUpdatedIn, decide_eq_false_iff_not]
        rintro ⟨o, ho, hoid, _⟩
        exact (by simpa using hf o ho : ¬o.id = it.id) hoid
      show List.foldl _ (a + 1, u) rest = _
      rw [ih (a + 1) u]
      rw [List.countP_cons, List.countP_cons, hadd, hupd]
      simp only [Prod.mk.injEq]
      constructor <;> simp <;> omega
    | some o =>
      have ho : o ∈ oldItems := List.mem_of_find?_eq_some hf
      have hoid : o.id = it.id := by simpa using List.find?_some hf
      have hadd : isAddedIn oldItems it = false := by
        simp only [isAddedIn, decide_eq_false_iff_not, Decidable.not_not]
        exact List.mem_map.mpr ⟨o, ho, hoid⟩
      show List.foldl _
        (if fingerprint o ≠ fingerprint it then (a, u + 1) else (a, u)) rest = _
      by_cases hfp : fingerprint o = fingerprint it
      · have hupd : isUpdatedIn oldItems it = false := by
          simp only [isUpdatedIn, decide_eq_false_iff_not]
          rintro ⟨o', ho', hoid', hfp'⟩
          have : o' = o := List.inj_on_of_nodup_map h ho' ho (by rw [hoid, hoid'])
          exact hfp' (this ▸ hfp)
        rw [if_neg (by simpa using hfp)]
        rw [ih a u, List.countP_cons, List.countP_cons, hadd, hupd]
        simp only [Prod.mk.injEq]
        constructor <;> simp <;> omega
      · have hupd : isUpdatedIn oldItems it = true := by
          simp only [isUpdatedIn, decide_eq_true_eq]
          exact ⟨o, ho, hoid, hfp⟩
        rw [if_pos (by simpa using hfp)]
        rw [ih a (u + 1), List.countP_cons, List.countP_cons, hadd, hupd]
        simp only [Prod.mk.injEq]
        constructor <;> simp <;> omega

/-- C8, general part: assuming the old items carry distinct ids (the data
model keys items by id), `diffThreads` counts as added exactly the new items
whose id does not occur among the old items, and as updated exactly those
whose id occurs but whose content fingerprint differs. -/
theorem diffThreads_counts (oldItems newItems : List Item)
    (h : (oldItems.map Item.id).Nodup) :
    diffThreads oldItems newItems
      = (newItems.countP (isAddedIn oldItems),
         newItems.countP (isUpdatedIn oldItems)) := by
  unfold diffThreads
  simpa using diffThreads_fold_aux oldItems h newItems 0 0

/-- The spec scenario items: old thread `[{id:1,score:5}]` and fresh thread
`[{id:1,score:9},{id:2,score:1}]`. -/
def oldScenario : List Item := [{ id := 1, score := some 5 }]

def newScenario : List Item := [{ id := 1, score := some 9 }, { id := 2, score := some 1 }]

/-- C8: `diffThreads` counts a new item as added iff its id does not occur in
the old items and as updated iff its id occurs but the content fingerprint
differs; on the spec scenario it returns `{added:1, updated:1}`. -/
theorem diffThreads_added_updated (oldItems newItems : List Item)
    (h : (oldItems.map Item.id).Nodup) :
    (diffThreads oldItems newItems).1 = newItems.countP (isAddedIn oldItems)
      ∧ (diffThreads oldItems newItems).2 = newItems.countP (isUpdatedIn oldItems)
      ∧ diffThreads oldScenario newScenario = (1, 1) := by
  refine ⟨?_, ?_, ?_⟩
  · rw [diffThreads_counts oldItems newItems h]
  · rw [diffThreads_counts oldItems newItems h]
  · rfl

/-- Witness for `diffThreads_added_updated` at the scenario input. -/
theorem diffThreads_added_updated_witness :
    (diffThreads oldScenario newScenario).1 = newScenario.countP (isAddedIn oldScenario)
      ∧ (diffThreads oldScenario newScenario).2 = newScenario.countP (isUpdatedIn oldScenario)
      ∧ diffThreads oldScenario newScenario = (1, 1) :=
  diffThreads_added_updated oldScenario newScenario (by decide)

/-- C10: the content fingerprint incorporates only the *length* of `kids`.
Two versions of an item that differ solely in the identity or order of the ids
in `kids`, with the count unchanged, have equal fingerprints, and
`diffThreads` reports the item as neither added nor updated. -/
theorem fingerprint_kids_length_only (it : Item) (ks : List Nat)
    (hlen : ks.length = it.kids.length) :
    fingerprint { it with kids := ks } = fingerprint it
      ∧ diffThreads [it] [{ it with kids := ks }] = (0, 0) := by
  have hfp : fingerprint { it with kids := ks } = fingerprint it := by
    simp [fingerprint, hlen]
  refine ⟨hfp, ?_⟩
  simp [diffThreads, List.lookup, hfp]

/-- Witness for `fingerprint_kids_length_only`: reordering `kids = [2,3]` to
`[3,2]` leaves the fingerprint unchanged and the diff empty. -/
theorem fingerprint_kids_length_only_witness :
    fingerprint { ({ id := 1, kids := [2, 3] } : Item) with kids := [3, 2] }
        = fingerprint { id := 1, kids := [2, 3] }
      ∧ diffThreads [{ id := 1, kids := [2, 3] }]
          [{ ({ id := 1, kids := [2, 3] } : Item) with kids := [3, 2] }] = (0, 0) :=
  fingerprint_kids_length_only { id := 1, kids := [2, 3] } [3, 2] rfl

/-! ## The tree data model (`src/modules/data.js`) -/

mutual
/-- A tree node (`buildTree` in `src/modules/data.js` creates objects
`{id, depth, parentId, children}`). -/
inductive TNode where
  | mk (id : Nat) (depth : Nat) (parentId : Option Nat) (children : TList)

/-- The children array of a tree node (a dedicated list type so that all tree
recursions are structural and kernel-reducible). -/
inductive TList where
  | nil
  | cons (head : TNode) (tail : TList)
end

def TNode.id : TNode → Nat
  | .mk i _ _ _ => i

def TNode.depth : TNode → Nat
  | .mk _ d _ _ => d

def TNode.parentId : TNode → Option Nat
  | .mk _ _ p _ => p

def TNode.children : TNode → TList
  | .mk _ _ _ cs => cs

/-- The children array as an ordinary list. -/
def TList.toList : TList → List TNode
  | .nil => []
  | .cons c rest => c :: rest.toList

mutual
/-- The subtree size of a node: itself plus all descendants.  This is the
value `computeSizes` (in both layout modules) stores into `node.size`, and
`descCount + 1` for the derived-metric pass. -/
def TNode.size : TNode → Nat
  | .mk _ _ _ cs => 1 + TList.sizeSum cs

def TList.sizeSum : TList → Nat
  | .nil => 0
  | .cons c rest => TNode.size c + TList.sizeSum rest
end

mutual
/-- All nodes of the tree in depth-first preorder. -/
def TNode.subnodes : TNode → List TNode
  | .mk i d p cs => .mk i d p cs :: TList.subnodesList cs

def TList.subnodesList : TList → List TNode
  | .nil => []
  | .cons c rest => TNode.subnodes c ++ TList.subnodesList rest
end

/-- The ids of all nodes of the tree in depth-first preorder. -/
def TNode.ids (t : TNode) : List Nat := t.subnodes.map TNode.id

/-- The shared mutable application state (`state.js`), restricted to the
fields the core tree algorithms read or write. -/
structure St where
  nodes : List (Nat × Item) := []
  depthMap : List (Nat × Nat) := []
  treeIndex : List (Nat × TNode) := []
  descCount : List (Nat × Nat) := []
  subtreeSize : List (Nat × Nat) := []
  collapsed : List Nat := []

mutual
/-- The function `buildTree(id, state, depth, parentId)` from `src/modules/data.js` lines
185-208, with an explicit recursion-depth fuel (the JS recursion is unbounded
and diverges on cyclic `kids`; any fuel larger than the reachable path length
reproduces it exactly).  Looks up the item; absent ⇒ `null` with no state
writes.  Otherwise records the depth, builds the children (ids whose item is
missing are skipped), and indexes the completed node (the JS code indexes the
node object before filling `children` in place; the final map content is the
completed node). -/
def buildTreeAux : Nat → Nat → St → Nat → Option Nat → Option TNode × St
  | 0, _, st, _, _ => (none, st)
  | fuel + 1, id, st, depth, parentId =>
    match st.nodes.lookup id with
    | none => (none, st)
    | some item =>
      let st1 : St := { st with depthMap := (id, depth) :: st.depthMap }
      let r := buildKids fuel item.kids st1 (depth + 1) id
      let node := TNode.mk id depth parentId r.1
      (some node, { r.2 with treeIndex := (id, node) :: r.2.treeIndex })

/-- The `for (const kid of item.kids)` loop of `buildTree`: build each kid in
order, skipping those that come back `null`. -/
def buildKids : Nat → List Nat → St → Nat → Nat → TList × St
  | _, [], st, _, _ => (.nil, st)
  | fuel, k :: rest, st, depth, pid =>
    match buildTreeAux fuel k st depth (some pid) with
    | (none, st') => buildKids fuel rest st' depth pid
    | (some c, st') =>
      let r := buildKids fuel rest st' depth pid
      (.cons c r.1, r.2)
end

/-- The entry point `buildTree(id, state)` with the JS default arguments `depth = 0`,
`parentId = null`. -/
def buildTree (fuel : Nat) (id : Nat) (st : St) : Option TNode × St :=
  buildTreeAux fuel id st 0 none

mutual
/-- The function `computeDescendants(node, state)` from `src/modules/data.js` lines
210-218: post-order pass storing each node's strict-descendant count and
subtree size into the state maps, returning the descendant count. -/
def computeDescendants : TNode → St → Nat × St
  | .mk i _ _ cs, st =>
    let r := descKids cs st
    (r.1, { r.2 with descCount := (i, r.1) :: r.2.descCount,
                     subtreeSize := (i, r.1 + 1) :: r.2.subtreeSize })

/-- The `for (const child of node.children) total += 1 + ...` loop. -/
def descKids : TList → St → Nat × St
  | .nil, st => (0, st)
  | .cons c rest, st =>
    let rc := computeDescendants c st
    let rr := descKids rest rc.2
    (1 + rc.1 + rr.1, rr.2)
end

mutual
/-- The function `buildVisibleTree(node, state)` from `src/modules/data.js` lines 220-233:
shallow-copies the node; if the node's id is in the collapsed set the copy
gets an empty children array, otherwise the children are copied recursively.
The function only reads state, so the state-passing embedding returns the
state alongside the copy. -/
def buildVisibleTree : TNode → St → TNode × St
  | .mk i d p cs, st =>
    if i ∈ st.collapsed then (TNode.mk i d p .nil, st)
    else
      let r := visKids cs st
      (TNode.mk i d p r.1, r.2)

def visKids : TList → St → TList × St
  | .nil, st => (.nil, st)
  | .cons c rest, st =>
    let rc := buildVisibleTree c st
    let rr := visKids rest rc.2
    (.cons rc.1 rr.1, rr.2)
end

/-! ## Derived-metric pass (C3) -/

/-- The ids of the nodes of a children list, in preorder. -/
def TList.idsList (cs : TList) : List Nat := (TList.subnodesList cs).map TNode.id

theorem TNode.ids_eq (i d : Nat) (p : Option Nat) (cs : TList) :
    (TNode.mk i d p cs).ids = i :: TList.idsList cs := by
  simp [TNode.ids, TNode.subnodes, TList.idsList, TNode.id]

theorem mem_ids_of_mem_subnodes {u t : TNode} (h : u ∈ t.subnodes) :
    u.id ∈ t.ids := List.mem_map_of_mem _ h

theorem mem_idsList_of_mem_subnodesList {u : TNode} {cs : TList}
    (h : u ∈ TList.subnodesList cs) : u.id ∈ TList.idsList cs :=
  List.mem_map_of_mem _ h

mutual
theorem computeDescendants_ret : ∀ (t : TNode) (st : St),
    (computeDescendants t st).1 = TList.sizeSum t.children
  | .mk i d p cs, st => by
    simp [computeDescendants, TNode.children, descKids_ret cs st]

theorem descKids_ret : ∀ (cs : TList) (st : St),
    (descKids cs st).1 = TList.sizeSum cs
  | .nil, st => by simp [descKids, TList.sizeSum]
  | .cons c rest, st => by
    simp [descKids, TList.sizeSum,
      computeDescendants_ret c st,
      descKids_ret rest (computeDescendants c st).2]
    cases c with
    | mk i d p ccs => simp [TNode.children, TNode.size]
end

mutual
theorem computeDescendants_frame : ∀ (t : TNode) (st : St),
    (computeDescendants t st).2.nodes = st.nodes
      ∧ (computeDescendants t st).2.depthMap = st.depthMap
      ∧ (computeDescendants t st).2.treeIndex = st.treeIndex
      ∧ (computeDescendants t st).2.collapsed = st.collapsed
  | .mk i d p cs, st => by
    simpa [computeDescendants] using descKids_frame cs st

theorem descKids_frame : ∀ (cs : TList) (st : St),
    (descKids cs st).2.nodes = st.nodes
      ∧ (descKids cs st).2.depthMap = st.depthMap
      ∧ (descKids cs st).2.treeIndex = st.treeIndex
      ∧ (descKids cs st).2.collapsed = st.collapsed
  | .nil, st => by simp [descKids]
  | .cons c rest, st => by
    have h1 := computeDescendants_frame c st
    have h2 := descKids_frame rest (computeDescendants c st).2
    simp [descKids]
    constructor
    · rw [h2.1, h1.1]
    constructor
    · rw [h2.2.1, h1.2.1]
    constructor
    · rw [h2.2.2.1, h1.2.2.1]
    · rw [h2.2.2.2, h1.2.2.2]
end

mutual
theorem computeDescendants_untouched : ∀ (t : TNode) (st : St) (j : Nat),
    j ∉ t.ids →
      (computeDescendants t st).2.descCount.lookup j = st.descCount.lookup j
        ∧ (computeDescendants t st).2.subtreeSize.lookup j = st.subtreeSize.lookup j
  | .mk i d p cs, st, j => by
    intro hj
    rw [TNode.ids_eq] at hj
    have hji : j ≠ i := fun he => hj (by rw [he]; exact List.mem_cons_self i _)
    have hjl : j ∉ TList.idsList cs := fun hm => hj (List.mem_cons_of_mem _ hm)
    have hk := descKids_untouched cs st j hjl
    simp [computeDescendants, List.lookup, beq_false_of_ne hji, hk.1, hk.2]

theorem descKids_untouched : ∀ (cs : TList) (st : St) (j : Nat),
    j ∉ TList.idsList cs →
      (descKids cs st).2.descCount.lookup j = st.descCount.lookup j
        ∧ (descKids cs st).2.subtreeSize.lookup j = st.subtreeSize.lookup j
  | .nil, st, j => by intro _; simp [descKids]
  | .cons c rest, st, j => by
    intro hj
    have hjl : TList.idsList (.cons c rest)
        = TNode.ids c ++ TList.idsList rest := by
      simp [TList.idsList, TList.subnodesList, TNode.ids]
    rw [hjl, List.mem_append] at hj
    push_neg at hj
    have h1 := computeDescendants_untouched c st j hj.1
    have h2 := descKids_untouched rest (computeDescendants c st).2 j hj.2
    simp [descKids, h2.1, h2.2, h1.1, h1.2]
end

mutual
theorem computeDescendants_written : ∀ (t : TNode) (st : St),
    t.ids.Nodup → ∀ u ∈ t.subnodes,
      (computeDescendants t st).2.descCount.lookup u.id
          = some (TList.sizeSum u.children)
        ∧ (computeDescendants t st).2.subtreeSize.lookup u.id
          = some (TList.sizeSum u.children + 1)
  | .mk i d p cs, st => by
    intro hnd u hu
    rw [TNode.ids_eq] at hnd
    rcases List.nodup_cons.mp hnd with ⟨hni, hndl⟩
    rcases (show u = TNode.mk i d p cs ∨ u ∈ TList.subnodesList cs by
      simpa [TNode.subnodes] using hu) with hroot | hsub
    · subst hroot
      simp [computeDescendants, TNode.id, TNode.children, List.lookup,
        descKids_ret cs st]
    · have huid : u.id ∈ TList.idsList cs := mem_idsList_of_mem_subnodesList hsub
      have hne : u.id ≠ i := fun he => hni (he ▸ huid)
      have hk := descKids_written cs st hndl u hsub
      simp [computeDescendants, List.lookup, beq_false_of_ne hne, hk.1, hk.2]

theorem descKids_written : ∀ (cs : TList) (st : St),
    (TList.idsList cs).Nodup → ∀ u ∈ TList.subnodesList cs,
      (descKids cs st).2.descCount.lookup u.id
          = some (TList.sizeSum u.children)
        ∧ (descKids cs st).2.subtreeSize.lookup u.id
          = some (TList.sizeSum u.children + 1)
  | .nil, _ => by
    intro _ u hu
    simp [TList.subnodesList] at hu
  | .cons c rest, st => by
    intro hnd u hu
    have hsplit : TList.idsList (.cons c rest)
        = TNode.ids c ++ TList.idsList rest := by
      simp [TList.idsList, TList.subnodesList, TNode.ids]
    rw [hsplit] at hnd
    have hndc : (TNode.ids c).Nodup := hnd.of_append_left
    have hndr : (TList.idsList rest).Nodup := hnd.of_append_right
    have hdisj : ∀ a ∈ TNode.ids c, a ∉ TList.idsList rest :=
      fun a ha => (List.nodup_append.mp hnd).2.2 ha
    rcases (show u ∈ TNode.subnodes c ∨ u ∈ TList.subnodesList rest by
      simpa [TList.subnodesList] using hu) with hc | hr
    · have h1 := computeDescendants_written c st hndc u hc
      have huid : u.id ∈ TNode.ids c := mem_ids_of_mem_subnodes hc
      have h2 := descKids_untouched rest (computeDescendants c st).2 u.id
        (hdisj u.id huid)
      simp [descKids]
      exact ⟨h2.1.trans h1.1, h2.2.trans h1.2⟩
    · have h2 := descKids_written rest (computeDescendants c st).2 hndr u hr
      simpa [descKids] using h2
end

theorem self_mem_subnodes : ∀ t : TNode, t ∈ t.subnodes
  | .mk i d p cs => by simp [TNode.subnodes]

theorem mem_subnodesList_of_mem_toList : ∀ (cs : TList) (c : TNode),
    c ∈ TList.toList cs → c ∈ TList.subnodesList cs
  | .nil, c => by intro h; simp [TList.toList] at h
  | .cons hd tl, c => by
    intro h
    rcases (show c = hd ∨ c ∈ TList.toList tl by
      simpa [TList.toList] using h) with he | hm
    · subst he
      simp [TList.subnodesList, List.mem_append]
      exact Or.inl (self_mem_subnodes c)
    · simp [TList.subnodesList, List.mem_append]
      exact Or.inr (mem_subnodesList_of_mem_toList tl c hm)

mutual
theorem subnodes_closed : ∀ (t : TNode), ∀ u ∈ t.subnodes,
    ∀ c ∈ TList.toList u.children, c ∈ t.subnodes
  | .mk i d p cs => by
    intro u hu c hc
    rcases (show u = TNode.mk i d p cs ∨ u ∈ TList.subnodesList cs by
      simpa [TNode.subnodes] using hu) with hroot | hsub
    · subst hroot
      simp only [TNode.children] at hc
      simp [TNode.subnodes]
      exact Or.inr (mem_subnodesList_of_mem_toList _ _ hc)
    · simp [TNode.subnodes]
      exact Or.inr (subnodesList_closed cs u hsub c hc)

theorem subnodesList_closed : ∀ (cs : TList), ∀ u ∈ TList.subnodesList cs,
    ∀ c ∈ TList.toList u.children, c ∈ TList.subnodesList cs
  | .nil => by intro u hu; simp [TList.subnodesList] at hu
  | .cons hd tl => by
    intro u hu c hc
    rcases (show u ∈ TNode.subnodes hd ∨ u ∈ TList.subnodesList tl by
      simpa [TList.subnodesList] using hu) with hh | ht
    · simp [TList.subnodesList, List.mem_append]
      exact Or.inl (subnodes_closed hd u hh c hc)
    · simp [TList.subnodesList, List.mem_append]
      exact Or.inr (subnodesList_closed tl u ht c hc)
end

theorem sizeSum_eq_sum_toList : ∀ cs : TList,
    TList.sizeSum cs = ((TList.toList cs).map TNode.size).sum
  | .nil => by simp [TList.sizeSum, TList.toList]
  | .cons hd tl => by
    simp [TList.sizeSum, TList.toList, sizeSum_eq_sum_toList tl]

theorem size_eq_sizeSum_children (t : TNode) :
    t.size = TList.sizeSum t.children + 1 := by
  cases t with
  | mk i d p cs => simp [TNode.size, TNode.children]; omega

/-- The scenario item map `{1:{id:1,kids:[2,3]}, 2:{id:2,kids:[]},
3:{id:3,kids:[]}}`. -/
def scSt : St :=
  { nodes := [(1, { id := 1, kids := [2, 3] }), (2, { id := 2 }), (3, { id := 3 })] }

/-- The tree `build(1)` produces on the scenario map: a root with two leaf
children. -/
def scTree : TNode :=
  .mk 1 0 none (.cons (.mk 2 1 (some 1) .nil) (.cons (.mk 3 1 (some 1) .nil) .nil))

/-- C3: after `computeDescendants` runs on the root of a tree (with distinct
node ids, per the data-model invariant), every node's stored `descCount` is
the sum of `descCount[c] + 1` over its direct children, `subtreeSize` is
`descCount + 1`, and every leaf has `descCount = 0`; on the scenario item map,
`build(1)` yields a root with two leaf children and `descCount` is 2, 0, 0 for
ids 1, 2, 3. -/
theorem computeDescendants_spec (t : TNode) (st : St) (h : t.ids.Nodup) :
    (∀ u ∈ t.subnodes,
        (computeDescendants t st).2.descCount.lookup u.id
          = some (((TList.toList u.children).map
              (fun c => ((computeDescendants t st).2.descCount.lookup c.id).getD 0
                + 1)).sum))
      ∧ (∀ u ∈ t.subnodes,
          (computeDescendants t st).2.subtreeSize.lookup u.id
            = some (((computeDescendants t st).2.descCount.lookup u.id).getD 0 + 1))
      ∧ (∀ u ∈ t.subnodes, u.children = TList.nil →
          (computeDescendants t st).2.descCount.lookup u.id = some 0)
      ∧ ((buildTree 5 1 scSt).1 = some scTree
          ∧ (computeDescendants scTree (buildTree 5 1 scSt).2).2.descCount.lookup 1
              = some 2
          ∧ (computeDescendants scTree (buildTree 5 1 scSt).2).2.descCount.lookup 2
              = some 0
          ∧ (computeDescendants scTree (buildTree 5 1 scSt).2).2.descCount.lookup 3
              = some 0) := by
  have hw := computeDescendants_written t st h
  refine ⟨?_, ?_, ?_, ?_⟩
  · intro u hu
    rw [(hw u hu).1]
    congr 1
    have hmap : (TList.toList u.children).map
        (fun c => ((computeDescendants t st).2.descCount.lookup c.id).getD 0 + 1)
        = (TList.toList u.children).map TNode.size := by
      apply List.map_congr_left
      intro c hc
      have hcs : c ∈ t.subnodes := subnodes_closed t u hu c hc
      rw [(hw c hcs).1]
      simp [size_eq_sizeSum_children c]
    rw [hmap, ← sizeSum_eq_sum_toList]
  · intro u hu
    rw [(hw u hu).2, (hw u hu).1]
    simp
  · intro u hu hleaf
    rw [(hw u hu).1, hleaf]
    simp [TList.toList, TList.sizeSum]
  · refine ⟨?_, ?_, ?_, ?_⟩ <;>
      simp [buildTree, buildTreeAux, buildKids, scSt, scTree,
        computeDescendants, descKids, List.lookup]

/-- Witness for `computeDescendants_spec` at the scenario tree. -/
theorem computeDescendants_spec_witness :
    scTree.ids.Nodup
      ∧ (computeDescendants scTree {}).2.descCount.lookup scTree.id
          = some (((TList.toList scTree.children).map
              (fun c => ((computeDescendants scTree {}).2.descCount.lookup c.id).getD 0
                + 1)).sum) :=
  ⟨by decide, (computeDescendants_spec scTree {} (by decide)).1 scTree
    (self_mem_subnodes scTree)⟩

/-! ## Visibility filter (C4) -/

mutual
theorem buildVisibleTree_state : ∀ (t : TNode) (st : St),
    (buildVisibleTree t st).2 = st
  | .mk i d p cs, st => by
    by_cases hi : i ∈ st.collapsed
    · simp [buildVisibleTree, hi]
    · simp [buildVisibleTree, hi, visKids_state cs st]

theorem visKids_state : ∀ (cs : TList) (st : St), (visKids cs st).2 = st
  | .nil, st => by simp [visKids]
  | .cons c rest, st => by
    have h1 := buildVisibleTree_state c st
    have h2 := visKids_state rest (buildVisibleTree c st).2
    rw [h1] at h2
    simp [visKids, h2, h1]
end

mutual
theorem buildVisibleTree_pruned : ∀ (t : TNode) (st : St),
    ∀ u ∈ (buildVisibleTree t st).1.subnodes,
      u.id ∈ st.collapsed → u.children = TList.nil
  | .mk i d p cs, st => by
    intro u hu hc
    by_cases hi : i ∈ st.collapsed
    · rcases (show u = TNode.mk i d p TList.nil by
        simpa [buildVisibleTree, hi, TNode.subnodes, TList.subnodesList] using hu)
        with he
      simp [he, TNode.children]
    · rcases (show u = TNode.mk i d p (visKids cs st).1
          ∨ u ∈ TList.subnodesList (visKids cs st).1 by
        simpa [buildVisibleTree, hi, TNode.subnodes] using hu) with he | hm
      · exact absurd (by simpa [he, TNode.id] using hc) hi
      · exact visKids_pruned cs st u hm hc

theorem visKids_pruned : ∀ (cs : TList) (st : St),
    ∀ u ∈ TList.subnodesList (visKids cs st).1,
      u.id ∈ st.collapsed → u.children = TList.nil
  | .nil, st => by intro u hu; simp [visKids, TList.subnodesList] at hu
  | .cons c rest, st => by
    intro u hu hc
    have hst := buildVisibleTree_state c st
    rcases (show u ∈ (buildVisibleTree c st).1.subnodes
        ∨ u ∈ TList.subnodesList (visKids rest (buildVisibleTree c st).2).1 by
      simpa [visKids, TList.subnodesList] using hu) with hm | hm
    · exact buildVisibleTree_pruned c st u hm hc
    · rw [hst] at hm
      exact visKids_pruned rest st u hm hc
end

/-- C4: the visibility filter is pure.  In the state-passing embedding the
returned state is the input state unchanged (so neither the collapsed set nor
the full tree stored in the state is mutated; the input tree value itself is
untouched by construction since the copy consists of fresh nodes), and every
node of the returned copy whose id is in the collapsed set has an empty
children array, regardless of its child count in the input tree. -/
theorem buildVisibleTree_spec (t : TNode) (st : St) :
    (buildVisibleTree t st).2 = st
      ∧ ∀ u ∈ (buildVisibleTree t st).1.subnodes,
          u.id ∈ st.collapsed → u.children = TList.nil :=
  ⟨buildVisibleTree_state t st, buildVisibleTree_pruned t st⟩

/-- Witness for `buildVisibleTree_spec`: collapsing the scenario root (which
has two children) leaves state untouched and yields a childless copy. -/
theorem buildVisibleTree_spec_witness :
    (buildVisibleTree scTree { collapsed := [1] }).2 = { collapsed := [1] }
      ∧ (buildVisibleTree scTree { collapsed := [1] }).1.children = TList.nil := by
  refine ⟨(buildVisibleTree_spec scTree { collapsed := [1] }).1, ?_⟩
  apply (buildVisibleTree_spec scTree { collapsed := [1] }).2
    (buildVisibleTree scTree { collapsed := [1] }).1 (self_mem_subnodes _)
  simp [buildVisibleTree, scTree, TNode.id]

mutual
theorem buildVisibleTree_empty_collapsed : ∀ (t : TNode) (st : St),
    st.collapsed = [] → (buildVisibleTree t st).1 = t
  | .mk i d p cs, st => by
    intro hc
    have hi : i ∉ st.collapsed := by simp [hc]
    simp [buildVisibleTree, hi, visKids_empty_collapsed cs st hc]

theorem visKids_empty_collapsed : ∀ (cs : TList) (st : St),
    st.collapsed = [] → (visKids cs st).1 = cs
  | .nil, st => by intro _; simp [visKids]
  | .cons c rest, st => by
    intro hc
    have h1 := buildVisibleTree_empty_collapsed c st hc
    have hst := buildVisibleTree_state c st
    have h2 := visKids_empty_collapsed rest (buildVisibleTree c st).2 (by rw [hst, hc])
    simp [visKids, h1, h2]
end

/-! ## Tree builder (C6) -/

mutual
theorem buildTreeAux_frame : ∀ (fuel id : Nat) (st : St) (depth : Nat)
    (pid : Option Nat),
    (buildTreeAux fuel id st depth pid).2.nodes = st.nodes
      ∧ (buildTreeAux fuel id st depth pid).2.collapsed = st.collapsed
  | 0, id, st, depth, pid => by simp [buildTreeAux]
  | fuel + 1, id, st, depth, pid => by
    cases h : st.nodes.lookup id with
    | none => simp [buildTreeAux, h]
    | some itm =>
      have hk := buildKids_frame fuel itm.kids
        { st with depthMap := (id, depth) :: st.depthMap } (depth + 1) id
      simp [buildTreeAux, h, hk.1, hk.2]

theorem buildKids_frame : ∀ (fuel : Nat) (kids : List Nat) (st : St)
    (depth : Nat) (pid : Nat),
    (buildKids fuel kids st depth pid).2.nodes = st.nodes
      ∧ (buildKids fuel kids st depth pid).2.collapsed = st.collapsed
  | fuel, [], st, depth, pid => by simp [buildKids]
  | fuel, k :: rest, st, depth, pid => by
    have hb := buildTreeAux_frame fuel k st depth (some pid)
    cases hres : buildTreeAux fuel k st depth (some pid) with
    | mk o st' =>
      rw [hres] at hb
      have hr := buildKids_frame fuel rest st' depth pid
      simp only at hb
      cases o with
      | none =>
        simp [buildKids, hres, hr.1, hr.2, hb.1, hb.2]
      | some c =>
        simp [buildKids, hres, hr.1, hr.2, hb.1, hb.2]
end

theorem buildTreeAux_none_iff (fuel id : Nat) (st : St) (depth : Nat)
    (pid : Option Nat) (hfuel : 1 ≤ fuel) :
    (buildTreeAux fuel id st depth pid).1 = none
      ↔ st.nodes.lookup id = none := by
  cases fuel with
  | zero => omega
  | succ n =>
    cases h : st.nodes.lookup id with
    | none => simp [buildTreeAux, h]
    | some itm => simp [buildTreeAux, h]

theorem buildTreeAux_absent (fuel id : Nat) (st : St) (depth : Nat)
    (pid : Option Nat) (h : st.nodes.lookup id = none) :
    buildTreeAux fuel id st depth pid = (none, st) := by
  cases fuel with
  | zero => simp [buildTreeAux]
  | succ n => simp [buildTreeAux, h]

theorem buildTreeAux_present (fuel id : Nat) (st : St) (depth : Nat)
    (pid : Option Nat) (itm : Item) (h : st.nodes.lookup id = some itm) :
    (buildTreeAux (fuel + 1) id st depth pid).1
      = some (TNode.mk id depth pid
          (buildKids fuel itm.kids
            { st with depthMap := (id, depth) :: st.depthMap } (depth + 1) id).1) := by
  simp [buildTreeAux, h]

/-- The children produced by the kid loop carry exactly the kid ids whose item
is present in the map, in order; absent ids are skipped. -/
theorem buildKids_ids (fuel : Nat) (kids : List Nat) (st : St) (depth : Nat)
    (pid : Nat) (hfuel : 1 ≤ fuel) :
    (TList.toList (buildKids fuel kids st depth pid).1).map TNode.id
      = kids.filter (fun k => (st.nodes.lookup k).isSome) := by
  induction kids generalizing st with
  | nil => simp [buildKids, TList.toList]
  | cons k rest ih =>
    cases h : st.nodes.lookup k with
    | none =>
      have habs := buildTreeAux_absent fuel k st depth (some pid) h
      simp [buildKids, habs, List.filter_cons, h, ih st]
    | some itm =>
      obtain ⟨n, rfl⟩ : ∃ n, fuel = n + 1 := ⟨fuel - 1, by omega⟩
      have hp := buildTreeAux_present n k st depth (some pid) itm h
      have hfr := buildTreeAux_frame (n + 1) k st depth (some pid)
      cases hres : buildTreeAux (n + 1) k st depth (some pid) with
      | mk o st' =>
        rw [hres] at hp hfr
        simp only at hp
        subst hp
        have := ih st'
        rw [hfr.1] at this
        simp [buildKids, hres, TList.toList, List.filter_cons, h, TNode.id, this]

mutual
theorem buildTreeAux_children_ids : ∀ (fuel id : Nat) (st : St) (depth : Nat)
    (pid : Option Nat) (node : TNode),
    (buildTreeAux fuel id st depth pid).1 = some node →
    ∀ u ∈ node.subnodes, u.depth + 1 < depth + fuel →
      ∃ itm, st.nodes.lookup u.id = some itm
        ∧ (TList.toList u.children).map TNode.id
            = itm.kids.filter (fun k => (st.nodes.lookup k).isSome)
  | 0, id, st, depth, pid, node => by
    intro h
    simp [buildTreeAux] at h
  | fuel + 1, id, st, depth, pid, node => by
    intro h u hu hd
    cases hit : st.nodes.lookup id with
    | none =>
      rw [buildTreeAux_absent _ _ _ _ _ hit] at h
      simp at h
    | some itm =>
      have hp := buildTreeAux_present fuel id st depth pid itm hit
      rw [h] at hp
      injection hp with hnode
      subst hnode
      rcases (show u = TNode.mk id depth pid
            (buildKids fuel itm.kids
              { st with depthMap := (id, depth) :: st.depthMap }
              (depth + 1) id).1
          ∨ u ∈ TList.subnodesList
              (buildKids fuel itm.kids
                { st with depthMap := (id, depth) :: st.depthMap }
                (depth + 1) id).1 by
        simpa [TNode.subnodes] using hu) with hroot | hsub
      · have hfuel : 1 ≤ fuel := by
          rw [hroot] at hd
          simp [TNode.depth] at hd
          omega
        refine ⟨itm, by simpa [hroot, TNode.id] using hit, ?_⟩
        rw [hroot]
        simpa [TNode.children] using
          buildKids_ids fuel itm.kids
            { st with depthMap := (id, depth) :: st.depthMap }
            (depth + 1) id hfuel
      · have hrec := buildKids_children_ids fuel itm.kids
          { st with depthMap := (id, depth) :: st.depthMap }
          (depth + 1) id u hsub (by omega)
        simpa using hrec

theorem buildKids_children_ids : ∀ (fuel : Nat) (kids : List Nat) (st : St)
    (depth : Nat) (pid : Nat),
    ∀ u ∈ TList.subnodesList (buildKids fuel kids st depth pid).1,
      u.depth + 1 < depth + fuel →
      ∃ itm, st.nodes.lookup u.id = some itm
        ∧ (TList.toList u.children).map TNode.id
            = itm.kids.filter (fun k => (st.nodes.lookup k).isSome)
  | fuel, [], st, depth, pid => by
    intro u hu
    simp [buildKids, TList.subnodesList] at hu
  | fuel, k :: rest, st, depth, pid => by
    intro u hu hd
    have hfr := buildTreeAux_frame fuel k st depth (some pid)
    cases hres : buildTreeAux fuel k st depth (some pid) with
    | mk o st' =>
      rw [hres] at hfr
      simp only at hfr
      cases o with
      | none =>
        rw [show buildKids fuel (k :: rest) st depth pid
            = buildKids fuel rest st' depth pid by simp [buildKids, hres]] at hu
        have hrec := buildKids_children_ids fuel rest st' depth pid u hu hd
        rwa [hfr.1] at hrec
      | some c =>
        rw [show (buildKids fuel (k :: rest) st depth pid).1
            = .cons c (buildKids fuel rest st' depth pid).1 by
          simp [buildKids, hres]] at hu
        rcases (show u ∈ TNode.subnodes c
            ∨ u ∈ TList.subnodesList (buildKids fuel rest st' depth pid).1 by
          simpa [TList.subnodesList] using hu) with hc | hr
        · exact buildTreeAux_children_ids fuel k st depth (some pid) c
            (by rw [hres]) u hc hd
        · have hrec := buildKids_children_ids fuel rest st' depth pid u hr hd
          rwa [hfr.1] at hrec
end

/-- C6: `buildTree(rootId, itemMap)` returns `null` iff the root id has no
item, in which case no state is mutated; and in a successful build every node
of the result was built from a present item whose absent kid ids were
silently skipped (the node's children ids are exactly the present kids, in
order) — nothing is thrown.  `fuel` is the embedding's recursion bound (the
JS recursion is unbounded; the depth-based bound in the last conjunct says
the node's own children were still within the modelled recursion depth). -/
theorem buildTree_spec (fuel id : Nat) (st : St) (hfuel : 1 ≤ fuel) :
    ((buildTree fuel id st).1 = none ↔ st.nodes.lookup id = none)
      ∧ (st.nodes.lookup id = none → (buildTree fuel id st).2 = st)
      ∧ (∀ node, (buildTree fuel id st).1 = some node →
          ∀ u ∈ node.subnodes, u.depth + 1 < fuel →
            ∃ itm, st.nodes.lookup u.id = some itm
              ∧ (TList.toList u.children).map TNode.id
                  = itm.kids.filter (fun k => (st.nodes.lookup k).isSome)) := by
  refine ⟨buildTreeAux_none_iff fuel id st 0 none hfuel, ?_, ?_⟩
  · intro h
    rw [buildTree, buildTreeAux_absent fuel id st 0 none h]
  · intro node h u hu hd
    simpa using buildTreeAux_children_ids fuel id st 0 none node h u hu
      (by omega)

/-- Witness for `buildTree_spec` on an item map whose root item lists a kid
(id 9) with no record: the build succeeds and node 9 is skipped. -/
theorem buildTree_spec_witness :
    1 ≤ 5
      ∧ ((buildTree 5 1 { nodes := [(1, { id := 1, kids := [2, 9] }),
            (2, { id := 2 })] }).1 = none
          ↔ (List.lookup 1 [(1, ({ id := 1, kids := [2, 9] } : Item)),
              (2, { id := 2 })] = none)) :=
  ⟨by decide,
    (buildTree_spec 5 1
      { nodes := [(1, { id := 1, kids := [2, 9] }), (2, { id := 2 })] }
      (by decide)).1⟩

/-! ## Focus calculator (C5, `src/modules/focus.js`) -/

/-- The focus state `{ancestors, descendants, active}` that `computeFocus`
stores into `state.focus` (sets modelled as lists of ids). -/
structure Focus where
  ancestors : List Nat
  descendants : List Nat
  active : Bool
deriving DecidableEq, Repr

/-- The tree index: id → node for every node of the full tree (populated by
`buildTree`; rebuilt per load). -/
def indexOfTree (t : TNode) : List (Nat × TNode) :=
  t.subnodes.map (fun u => (u.id, u))

/-- The upward `while (current && current.parentId !== null …)` loop of
`computeFocus`: push the parent id, move to the parent via the index, stop at
a node with no parent or a dangling index entry.  `fuel` bounds the climb (the
JS loop is unbounded; any fuel larger than the node's depth reproduces it). -/
def walkUp : Nat → List (Nat × TNode) → TNode → List Nat → List Nat
  | 0, _, _, acc => acc
  | fuel + 1, index, cur, acc =>
    match cur.parentId with
    | none => acc
    | some pid =>
      match index.lookup pid with
      | none => pid :: acc
      | some par => walkUp fuel index par (pid :: acc)

mutual
/-- The downward `walk` closure of `computeFocus`: collect each child's id and
recurse, in order. -/
def walkDesc : TNode → List Nat
  | .mk _ _ _ cs => walkDescList cs

def walkDescList : TList → List Nat
  | .nil => []
  | .cons c rest => c.id :: (walkDesc c ++ walkDescList rest)
end

/-- The function `computeFocus(state, id)` from `src/modules/focus.js` lines 11-43.  The
JS guard `if (!id || !state.treeIndex || !state.treeIndex.size) return;`
leaves the cleared (inactive) focus when the id is falsy (0) or the index is
empty; a missing index entry also returns the cleared focus. -/
def computeFocus (index : List (Nat × TNode)) (id : Nat) : Focus :=
  if id = 0 then ⟨[], [], false⟩
  else if index.isEmpty then ⟨[], [], false⟩
  else
    match index.lookup id with
    | none => ⟨[], [], false⟩
    | some node => ⟨walkUp index.length index node [], walkDesc node, true⟩

mutual
/-- The ids on the path from the root of `t` down to (excluding) the node
with id `target`: the strict-ancestor chain of the selection, root first;
`none` when the target is not in the tree. -/
def pathTo : TNode → Nat → Option (List Nat)
  | .mk i _ _ cs, target =>
    if i = target then some []
    else
      match pathToList cs target with
      | none => none
      | some l => some (i :: l)

def pathToList : TList → Nat → Option (List Nat)
  | .nil, _ => none
  | .cons c rest, target =>
    match pathTo c target with
    | some l => some l
    | none => pathToList rest target
end

mutual
/-- Parent-pointer consistency: every child's `parentId` is its parent's id
(an invariant `buildTree` establishes). -/
def consistentChildren : TNode → Bool
  | .mk i _ _ cs => consistentList cs i

def consistentList : TList → Nat → Bool
  | .nil, _ => true
  | .cons c rest, pid =>
    (c.parentId == some pid) && consistentChildren c && consistentList rest pid
end

mutual
theorem walkDesc_eq_idsList : ∀ u : TNode, walkDesc u = TList.idsList u.children
  | .mk i d p cs => by
    simp [walkDesc, TNode.children, walkDescList_eq_idsList cs]

theorem walkDescList_eq_idsList : ∀ cs : TList, walkDescList cs = TList.idsList cs
  | .nil => by simp [walkDescList, TList.idsList, TList.subnodesList]
  | .cons c rest => by
    cases c with
    | mk i d p ccs =>
      simp [walkDescList, TList.idsList, TList.subnodesList, TNode.subnodes,
        TNode.id, walkDesc_eq_idsList (TNode.mk i d p ccs),
        walkDescList_eq_idsList rest, TNode.children]
end

mutual
theorem pathTo_isSome : ∀ (t : TNode), ∀ u ∈ t.subnodes, (pathTo t u.id).isSome
  | .mk i d p cs => by
    intro u hu
    by_cases hi : i = u.id
    · simp [pathTo, hi]
    · rcases (show u = TNode.mk i d p cs ∨ u ∈ TList.subnodesList cs by
        simpa [TNode.subnodes] using hu) with hroot | hsub
      · exact absurd (by simp [hroot, TNode.id]) hi
      · have := pathToList_isSome cs u hsub
        cases hl : pathToList cs u.id with
        | none => rw [hl] at this; simp at this
        | some l => simp [pathTo, hi, hl]

theorem pathToList_isSome : ∀ (cs : TList), ∀ u ∈ TList.subnodesList cs,
    (pathToList cs u.id).isSome
  | .nil => by intro u hu; simp [TList.subnodesList] at hu
  | .cons c rest => by
    intro u hu
    rcases (show u ∈ TNode.subnodes c ∨ u ∈ TList.subnodesList rest by
      simpa [TList.subnodesList] using hu) with hc | hr
    · have := pathTo_isSome c u hc
      cases hl : pathTo c u.id with
      | none => rw [hl] at this; simp at this
      | some l => simp [pathToList, hl]
    · cases hl : pathTo c u.id with
      | none => simpa [pathToList, hl] using pathToList_isSome rest u hr
      | some l => simp [pathToList, hl]
end

mutual
theorem pathTo_mem_ids : ∀ (t : TNode) (j : Nat) (l : List Nat),
    pathTo t j = some l → j ∈ t.ids
  | .mk i d p cs, j, l => by
    intro h
    rw [TNode.ids_eq]
    by_cases hi : i = j
    · simp [hi]
    · cases hl : pathToList cs j with
      | none => simp [pathTo, hi, hl] at h
      | some l₀ => exact List.mem_cons_of_mem _ (pathToList_mem_ids cs j l₀ hl)

theorem pathToList_mem_ids : ∀ (cs : TList) (j : Nat) (l : List Nat),
    pathToList cs j = some l → j ∈ TList.idsList cs
  | .nil, j, l => by intro h; simp [pathToList] at h
  | .cons c rest, j, l => by
    intro h
    have hsplit : TList.idsList (.cons c rest)
        = TNode.ids c ++ TList.idsList rest := by
      simp [TList.idsList, TList.subnodesList, TNode.ids]
    rw [hsplit, List.mem_append]
    cases hl : pathTo c j with
    | some lc => exact Or.inl (pathTo_mem_ids c j lc hl)
    | none =>
      rw [show pathToList (.cons c rest) j = pathToList rest j by
        simp [pathToList, hl]] at h
      exact Or.inr (pathToList_mem_ids rest j l h)
end

mutual
/-- A path never contains its own target (each entry is a strict ancestor). -/
theorem pathTo_not_mem_self : ∀ (t : TNode) (j : Nat) (l : List Nat),
    pathTo t j = some l → j ∉ l
  | .mk i d p cs, j, l => by
    intro h
    by_cases hi : i = j
    · rw [show pathTo (.mk i d p cs) j = some [] by simp [pathTo, hi]] at h
      injection h with h
      subst h
      simp
    · cases hl : pathToList cs j with
      | none => simp [pathTo, hi, hl] at h
      | some l₀ =>
        rw [show pathTo (.mk i d p cs) j = some (i :: l₀) by
          simp [pathTo, hi, hl]] at h
        injection h with h
        subst h
        intro hmem
        rcases List.mem_cons.mp hmem with he | hm
        · exact hi he.symm
        · exact pathToList_not_mem_self cs j l₀ hl hm

theorem pathToList_not_mem_self : ∀ (cs : TList) (j : Nat) (l : List Nat),
    pathToList cs j = some l → j ∉ l
  | .nil, j, l => by intro h; simp [pathToList] at h
  | .cons c rest, j, l => by
    intro h
    cases hl : pathTo c j with
    | some lc =>
      rw [show pathToList (.cons c rest) j = some lc by
        simp [pathToList, hl]] at h
      injection h with h
      subst h
      exact pathTo_not_mem_self c j lc hl
    | none =>
      rw [show pathToList (.cons c rest) j = pathToList rest j by
        simp [pathToList, hl]] at h
      exact pathToList_not_mem_self rest j l h
end

theorem subnodes_ne_nil (t : TNode) : t.subnodes ≠ [] := by
  cases t with
  | mk i d p cs => simp [TNode.subnodes]

theorem pathTo_nil_iff (t : TNode) (j : Nat) :
    pathTo t j = some [] ↔ t.id = j := by
  cases t with
  | mk i d p cs =>
    constructor
    · intro h
      by_cases hi : i = j
      · simpa [TNode.id] using hi
      · cases hl : pathToList cs j with
        | none => simp [pathTo, hi, hl] at h
        | some l₀ => simp [pathTo, hi, hl] at h
    · intro h
      simp [pathTo, show i = j from h]

theorem subnodes_id_inj {t : TNode} (hnd : t.ids.Nodup) :
    ∀ u ∈ t.subnodes, ∀ v ∈ t.subnodes, u.id = v.id → u = v :=
  fun u hu v hv he =>
    List.inj_on_of_nodup_map (by simpa [TNode.ids] using hnd) hu hv he

theorem lookup_map_pair : ∀ (l : List TNode) (j : Nat),
    (l.map (fun u => (u.id, u))).lookup j = l.find? (fun u => u.id == j)
  | [], j => by simp
  | u :: rest, j => by
    by_cases hj : j = u.id
    · simp [List.lookup, List.find?, hj]
    · simp [List.lookup, List.find?, beq_false_of_ne hj,
        beq_false_of_ne (Ne.symm hj), lookup_map_pair rest j]

theorem lookup_indexOfTree_none (t : TNode) (j : Nat) :
    (indexOfTree t).lookup j = none ↔ j ∉ t.ids := by
  rw [indexOfTree, lookup_map_pair, List.find?_eq_none]
  constructor
  · intro h hm
    obtain ⟨u, hu, huid⟩ := List.mem_map.mp hm
    have hne : u.id ≠ j := by simpa using h u hu
    exact hne huid
  · intro h u hu
    intro hbeq
    have he : u.id = j := by simpa using hbeq
    exact h (List.mem_map.mpr ⟨u, hu, he⟩)

theorem lookup_indexOfTree_some {t : TNode} {j : Nat} {u : TNode}
    (h : (indexOfTree t).lookup j = some u) : u ∈ t.subnodes ∧ u.id = j := by
  rw [indexOfTree, lookup_map_pair] at h
  exact ⟨List.mem_of_find?_eq_some h, by simpa using List.find?_some h⟩

theorem lookup_indexOfTree_self {t : TNode} (hnd : t.ids.Nodup) :
    ∀ P ∈ t.subnodes, (indexOfTree t).lookup P.id = some P := by
  intro P hP
  cases h : (indexOfTree t).lookup P.id with
  | none =>
    rw [lookup_indexOfTree_none] at h
    exact absurd (mem_ids_of_mem_subnodes hP) h
  | some v =>
    obtain ⟨hv, hvid⟩ := lookup_indexOfTree_some h
    rw [subnodes_id_inj hnd v hv P hP hvid]

mutual
theorem pathTo_length_lt : ∀ (t : TNode) (j : Nat) (l : List Nat),
    pathTo t j = some l → l.length < t.subnodes.length
  | .mk i d p cs, j, l => by
    intro h
    by_cases hi : i = j
    · rw [show pathTo (.mk i d p cs) j = some [] by simp [pathTo, hi]] at h
      injection h with h
      subst h
      simp [TNode.subnodes]
    · cases hl : pathToList cs j with
      | none => simp [pathTo, hi, hl] at h
      | some l₀ =>
        rw [show pathTo (.mk i d p cs) j = some (i :: l₀) by
          simp [pathTo, hi, hl]] at h
        injection h with h
        subst h
        have := pathToList_length_lt cs j l₀ hl
        simp only [TNode.subnodes, List.length_cons, List.length_map]
        simpa using this

theorem pathToList_length_lt : ∀ (cs : TList) (j : Nat) (l : List Nat),
    pathToList cs j = some l → l.length < (TList.subnodesList cs).length
  | .nil, j, l => by intro h; simp [pathToList] at h
  | .cons c rest, j, l => by
    intro h
    have hlen : (TList.subnodesList (.cons c rest)).length
        = c.subnodes.length + (TList.subnodesList rest).length := by
      simp [TList.subnodesList]
    cases hl : pathTo c j with
    | some lc =>
      rw [show pathToList (.cons c rest) j = some lc by simp [pathToList, hl]] at h
      injection h with h
      subst h
      have := pathTo_length_lt c j lc hl
      omega
    | none =>
      rw [show pathToList (.cons c rest) j = pathToList rest j by
        simp [pathToList, hl]] at h
      have := pathToList_length_lt rest j l h
      omega
end

/-- If a children list (whose nodes' parent pointers are consistent with
parent `pid`) yields an empty path to `j`, then `j` is the id of one of the
direct children, whose `parentId` is `some pid`. -/
theorem pathToList_nil_case : ∀ (cs : TList) (pid : Nat),
    consistentList cs pid = true → ∀ j, pathToList cs j = some [] →
      ∃ u, u ∈ TList.subnodesList cs ∧ u.id = j ∧ u.parentId = some pid
  | .nil, pid => by intro _ j h; simp [pathToList] at h
  | .cons c rest, pid => by
    intro hcon j h
    simp only [consistentList, Bool.and_eq_true, beq_iff_eq] at hcon
    cases hl : pathTo c j with
    | some lc =>
      rw [show pathToList (.cons c rest) j = some lc by simp [pathToList, hl]] at h
      injection h with h
      subst h
      have hcid : c.id = j := (pathTo_nil_iff c j).mp hl
      refine ⟨c, ?_, hcid, hcon.1.1⟩
      rw [show TList.subnodesList (.cons c rest)
          = c.subnodes ++ TList.subnodesList rest by simp [TList.subnodesList],
        List.mem_append]
      exact Or.inl (self_mem_subnodes c)
    | none =>
      rw [show pathToList (.cons c rest) j = pathToList rest j by
        simp [pathToList, hl]] at h
      obtain ⟨u, hu, huid, hupar⟩ := pathToList_nil_case rest pid hcon.2 j h
      refine ⟨u, ?_, huid, hupar⟩
      rw [show TList.subnodesList (.cons c rest)
          = c.subnodes ++ TList.subnodesList rest by simp [TList.subnodesList],
        List.mem_append]
      exact Or.inr hu

mutual
/-- Structure of a nonempty ancestor path in a well-formed tree: the last
path entry is the target's parent, it names a tree node, and dropping it
yields that parent's own ancestor path. -/
theorem pathTo_concat : ∀ (t : TNode), t.ids.Nodup →
    consistentChildren t = true →
    ∀ (j p : Nat) (l' : List Nat), pathTo t j = some (l' ++ [p]) →
      ∃ u P, u ∈ t.subnodes ∧ u.id = j ∧ u.parentId = some p
        ∧ P ∈ t.subnodes ∧ P.id = p ∧ pathTo t p = some l'
  | .mk i d par cs => by
    intro hnd hcon j p l' h
    rw [TNode.ids_eq] at hnd
    rcases List.nodup_cons.mp hnd with ⟨hni, hndl⟩
    simp only [consistentChildren] at hcon
    by_cases hi : i = j
    · rw [show pathTo (.mk i d par cs) j = some [] by simp [pathTo, hi]] at h
      injection h with h
      exact absurd h.symm (by simp)
    · cases hl : pathToList cs j with
      | none => simp [pathTo, hi, hl] at h
      | some l₀ =>
        rw [show pathTo (.mk i d par cs) j = some (i :: l₀) by
          simp [pathTo, hi, hl]] at h
        injection h with h
        cases l'  with
        | nil =>
          obtain ⟨hip, hl0⟩ : i = p ∧ l₀ = [] := by
            have := h.symm
            simp at this
            exact ⟨this.1.symm, this.2⟩
          subst hl0
          obtain ⟨u, hu, huid, hupar⟩ := pathToList_nil_case cs i hcon j hl
          refine ⟨u, TNode.mk i d par cs, ?_, huid, by rw [hupar, hip], ?_, ?_, ?_⟩
          · simp [TNode.subnodes]
            exact Or.inr hu
          · exact self_mem_subnodes _
          · simp [TNode.id, hip]
          · rw [← hip]
            exact (pathTo_nil_iff _ i).mpr (by simp [TNode.id])
        | cons a l'' =>
          obtain ⟨hai, hl0⟩ : a = i ∧ l₀ = l'' ++ [p] := by
            have := h.symm
            simp at this
            exact ⟨this.1, this.2.symm⟩
          subst hl0
          obtain ⟨u, P, hu, huid, hupar, hP, hPid, hpathp⟩ :=
            pathToList_concat cs i hndl hcon j p l'' hl
          have hpmem : p ∈ TList.idsList cs :=
            hPid ▸ mem_idsList_of_mem_subnodesList hP
          have hip : i ≠ p := fun he => hni (he ▸ hpmem)
          refine ⟨u, P, ?_, huid, hupar, ?_, hPid, ?_⟩
          · simp [TNode.subnodes]
            exact Or.inr hu
          · simp [TNode.subnodes]
            exact Or.inr hP
          · rw [show pathTo (.mk i d par cs) p = some (i :: l'') by
              simp [pathTo, hip, hpathp]]
            rw [hai]

theorem pathToList_concat : ∀ (cs : TList) (pid : Nat),
    (TList.idsList cs).Nodup → consistentList cs pid = true →
    ∀ (j p : Nat) (l' : List Nat), pathToList cs j = some (l' ++ [p]) →
      ∃ u P, u ∈ TList.subnodesList cs ∧ u.id = j ∧ u.parentId = some p
        ∧ P ∈ TList.subnodesList cs ∧ P.id = p ∧ pathToList cs p = some l'
  | .nil, pid => by intro _ _ j p l' h; simp [pathToList] at h
  | .cons c rest, pid => by
    intro hnd hcon j p l' h
    have hsplit : TList.idsList (.cons c rest)
        = TNode.ids c ++ TList.idsList rest := by
      simp [TList.idsList, TList.subnodesList, TNode.ids]
    rw [hsplit] at hnd
    have hndc : (TNode.ids c).Nodup := hnd.of_append_left
    have hndr : (TList.idsList rest).Nodup := hnd.of_append_right
    have hdisj : ∀ a ∈ TNode.ids c, a ∉ TList.idsList rest :=
      fun a ha => (List.nodup_append.mp hnd).2.2 ha
    simp only [consistentList, Bool.and_eq_true, beq_iff_eq] at hcon
    have hmem : TList.subnodesList (.cons c rest)
        = c.subnodes ++ TList.subnodesList rest := by simp [TList.subnodesList]
    cases hl : pathTo c j with
    | some lc =>
      rw [show pathToList (.cons c rest) j = some lc by simp [pathToList, hl]] at h
      injection h with h
      subst h
      obtain ⟨u, P, hu, huid, hupar, hP, hPid, hpathp⟩ :=
        pathTo_concat c hndc hcon.1.2 j p l' hl
      refine ⟨u, P, ?_, huid, hupar, ?_, hPid, ?_⟩
      · rw [hmem, List.mem_append]; exact Or.inl hu
      · rw [hmem, List.mem_append]; exact Or.inl hP
      · simp [pathToList, hpathp]
    | none =>
      rw [show pathToList (.cons c rest) j = pathToList rest j by
        simp [pathToList, hl]] at h
      obtain ⟨u, P, hu, huid, hupar, hP, hPid, hpathp⟩ :=
        pathToList_concat rest pid hndr hcon.2 j p l' h
      have hpnotc : p ∉ TNode.ids c := by
        intro hpc
        exact hdisj p hpc (hPid ▸ mem_idsList_of_mem_subnodesList hP)
      have hpc_none : pathTo c p = none := by
        cases hpc : pathTo c p with
        | none => rfl
        | some lp => exact absurd (pathTo_mem_ids c p lp hpc) hpnotc
      refine ⟨u, P, ?_, huid, hupar, ?_, hPid, ?_⟩
      · rw [hmem, List.mem_append]; exact Or.inr hu
      · rw [hmem, List.mem_append]; exact Or.inr hP
      · simp [pathToList, hpc_none, hpathp]
end

/-- The upward loop of `computeFocus` collects exactly the root path of the
selected node (root first), given enough fuel. -/
theorem walkUp_correct (t : TNode) (hnd : t.ids.Nodup)
    (hroot : t.parentId = none) (hcon : consistentChildren t = true) :
    ∀ (n : Nat) (l : List Nat) (u : TNode) (acc : List Nat) (fuel : Nat),
      l.length = n → u ∈ t.subnodes → pathTo t u.id = some l →
      l.length < fuel →
      walkUp fuel (indexOfTree t) u acc = l ++ acc := by
  intro n
  induction n using Nat.strong_induction_on with
  | _ n ih =>
    intro l u acc fuel hlen hu hpath hfuel
    rcases List.eq_nil_or_concat l with rfl | ⟨l', p, rfl⟩
    all_goals try rw [List.concat_eq_append] at hpath hlen hfuel
    · have hid : t.id = u.id := (pathTo_nil_iff t u.id).mp hpath
      have hut : u = t := subnodes_id_inj hnd u hu t (self_mem_subnodes t) hid.symm
      obtain ⟨f, rfl⟩ : ∃ f, fuel = f + 1 := ⟨fuel - 1, by omega⟩
      rw [hut]
      simp [walkUp, hroot]
    · obtain ⟨uu, P, huu, huid, hupar, hP, hPid, hpathp⟩ :=
        pathTo_concat t hnd hcon u.id p l' hpath
      have huu' : uu = u := subnodes_id_inj hnd uu huu u hu huid
      subst huu'
      have hPlook : (indexOfTree t).lookup p = some P :=
        hPid ▸ lookup_indexOfTree_self hnd P hP
      obtain ⟨f, rfl⟩ : ∃ f, fuel = f + 1 := ⟨fuel - 1, by omega⟩
      rw [show walkUp (f + 1) (indexOfTree t) uu acc
          = walkUp f (indexOfTree t) P (p :: acc) by
        simp [walkUp, hupar, hPlook]]
      rw [ih l'.length (by simp at hlen; omega) l' P (p :: acc) f rfl hP
        (hPid ▸ hpathp) (by simp at hfuel; omega)]
      simp

/-- C5 (amended): `computeFocus` on the index of a well-formed tree (distinct
ids, consistent parent pointers, root parent `null`).  For a *nonzero*
selected id present in the index the ancestors are exactly the ids on the
path from the selection to the root, excluding the selection itself (so the
root is included iff it is a strict ancestor), the descendants are exactly
the ids of the selection's strict descendants in preorder, and `active` is
true; for an id absent from the index everything is empty and inactive.
(The JS guard `if (!id …)` makes id 0 inactive even when present — see the
counterexample — hence the nonzero proviso.) -/
theorem computeFocus_spec (t : TNode) (uid : Nat) (hnd : t.ids.Nodup)
    (hroot : t.parentId = none) (hcon : consistentChildren t = true)
    (h0 : uid ≠ 0) :
    (∀ j, j ∉ t.ids → computeFocus (indexOfTree t) j = ⟨[], [], false⟩)
      ∧ (∀ u ∈ t.subnodes, u.id = uid →
          ∃ l, pathTo t uid = some l ∧ uid ∉ l
            ∧ computeFocus (indexOfTree t) uid
              = ⟨l, TList.idsList u.children, true⟩) := by
  constructor
  · intro j hj
    by_cases hj0 : j = 0
    · simp [computeFocus, hj0]
    · have hnone : (indexOfTree t).lookup j = none :=
        (lookup_indexOfTree_none t j).mpr hj
      simp [computeFocus, hj0, hnone]
  · intro u hu huid
    subst huid
    have hlook : (indexOfTree t).lookup u.id = some u :=
      lookup_indexOfTree_self hnd u hu
    have hsome := pathTo_isSome t u hu
    cases hpath : pathTo t u.id with
    | none => rw [hpath] at hsome; simp at hsome
    | some l =>
      refine ⟨l, rfl, pathTo_not_mem_self t u.id l hpath, ?_⟩
      have hne : ¬(indexOfTree t).isEmpty := by
        rw [List.isEmpty_iff]
        intro he
        have := subnodes_ne_nil t
        simp [indexOfTree] at he
        exact this he
      have hlenlt : l.length < (indexOfTree t).length := by
        have := pathTo_length_lt t u.id l hpath
        simpa [indexOfTree] using this
      have hwalk := walkUp_correct t hnd hroot hcon l.length l u []
        (indexOfTree t).length rfl hu hpath hlenlt
      simp [computeFocus, h0, hne, hlook, hwalk, walkDesc_eq_idsList]

/-- C5 counterexample to the claim as stated: a tree whose root has id 0; the
id is present in the index, yet `computeFocus` returns the inactive empty
focus because the JS falsy-id guard treats 0 like "nothing selected". -/
theorem computeFocus_claim_counterexample :
    (indexOfTree (TNode.mk 0 0 none .nil)).lookup 0
        = some (TNode.mk 0 0 none .nil)
      ∧ computeFocus (indexOfTree (TNode.mk 0 0 none .nil)) 0
          = ⟨[], [], false⟩ := by
  constructor
  · rfl
  · rfl

/-- Witness for `computeFocus_spec` on the scenario tree, selecting id 2. -/
theorem computeFocus_spec_witness :
    computeFocus (indexOfTree scTree) 99 = ⟨[], [], false⟩ := by
  have h := (computeFocus_spec scTree 99 (by decide) (by decide) (by decide)
    (by decide)).1 99 (by decide)
  exact h

/-! ## Layout engine: nested bands / icicle (`src/unnamed/part_001`, C1) and
weighted flow columns / sankey (`src/modules/layouts/layout-sankey.js`, C2).
Geometry is computed in `ℚ` (exact; the JS floats agree up to rounding). -/

mutual
/-- A positioned node: the tree node after a layout's `compute` has set
`size` (via `computeSizes`) and `x, y, width, height, cx, cy` on it. -/
inductive PNode where
  | mk (id : Nat) (depth : Nat) (size : Nat) (x y width height cx cy : ℚ)
      (children : PList)

inductive PList where
  | nil
  | cons (head : PNode) (tail : PList)
end

def PNode.id : PNode → Nat
  | .mk i _ _ _ _ _ _ _ _ _ => i

def PNode.depth : PNode → Nat
  | .mk _ d _ _ _ _ _ _ _ _ => d

def PNode.size : PNode → Nat
  | .mk _ _ s _ _ _ _ _ _ _ => s

def PNode.x : PNode → ℚ
  | .mk _ _ _ v _ _ _ _ _ _ => v

def PNode.y : PNode → ℚ
  | .mk _ _ _ _ v _ _ _ _ _ => v

def PNode.width : PNode → ℚ
  | .mk _ _ _ _ _ v _ _ _ _ => v

def PNode.height : PNode → ℚ
  | .mk _ _ _ _ _ _ v _ _ _ => v

def PNode.cx : PNode → ℚ
  | .mk _ _ _ _ _ _ _ v _ _ => v

def PNode.cy : PNode → ℚ
  | .mk _ _ _ _ _ _ _ _ v _ => v

def PNode.children : PNode → PList
  | .mk _ _ _ _ _ _ _ _ _ cs => cs

def PList.widths : PList → List ℚ
  | .nil => []
  | .cons c rest => c.width :: rest.widths

def PList.heights : PList → List ℚ
  | .nil => []
  | .cons c rest => c.height :: rest.heights

def PList.plength : PList → Nat
  | .nil => 0
  | .cons _ rest => rest.plength + 1

mutual
/-- The flattened `nodes` array of a layout result: each placed node is
pushed before its children are placed, in order (preorder). -/
def PNode.flat : PNode → List PNode
  | .mk i d s x y w h cx cy cs => .mk i d s x y w h cx cy cs :: PList.flatList cs

def PList.flatList : PList → List PNode
  | .nil => []
  | .cons c rest => PNode.flat c ++ PList.flatList rest
end

/-- The common layout result `{nodes, links, bounds, maxDepth}` (links as
(from-id, to-id, depth) triples). -/
structure LayoutResult where
  nodes : List PNode
  links : List (Nat × Nat × Nat)
  boundsWidth : ℚ
  boundsHeight : ℚ
  maxDepth : Nat

def depthHeight : ℚ := 110
def unitWidth : ℚ := 12

mutual
/-- The `place(node, x, y, width)` recursion of the icicle layout
(`src/unnamed/part_001` lines 33-51): height is one depth band; each child
gets `width * child.size / node.size` starting at the parent's left edge. -/
def icPlace : TNode → ℚ → ℚ → ℚ → PNode
  | .mk i d p cs, x, y, w =>
    .mk i d (TNode.size (.mk i d p cs)) x y w depthHeight (x + w / 2)
      (y + depthHeight / 2)
      (icPlaceKids cs x (y + depthHeight) w (TNode.size (.mk i d p cs)))

def icPlaceKids : TList → ℚ → ℚ → ℚ → Nat → PList
  | .nil, _, _, _, _ => .nil
  | .cons c rest, cursor, y, w, psz =>
    .cons (icPlace c cursor y (w * (TNode.size c : ℚ) / (psz : ℚ)))
      (icPlaceKids rest (cursor + w * (TNode.size c : ℚ) / (psz : ℚ)) y w psz)
end

/-- The function `compute(root)` of the icicle layout (`src/unnamed/part_001` lines
28-65). -/
def icicleCompute (root : TNode) : LayoutResult :=
  let totalWidth : ℚ := (root.size : ℚ) * unitWidth
  let nodes := (icPlace root 0 0 totalWidth).flat
  let maxDepth : Nat := nodes.foldl (fun m n => max m n.depth) 0
  { nodes := nodes
    links := []
    boundsWidth := max totalWidth 1
    boundsHeight := ((maxDepth : ℚ) + 1) * depthHeight
    maxDepth := maxDepth }

def columnWidth : ℚ := 140
def columnGap : ℚ := 120
def unitHeight : ℚ := 10
def minHeight : ℚ := 12
def nodeGap : ℚ := 4

/-- The `childHeights` array of the sankey layout: per child the preferred
height `max(minHeight, available * child.size / node.size)`. -/
def skPrefs (available : ℚ) (psz : Nat) (cs : TList) : List ℚ :=
  (TList.toList cs).map
    (fun c => max minHeight (available * (TNode.size c : ℚ) / (psz : ℚ)))

mutual
/-- The `place(node, x, y, height)` recursion of the sankey layout
(`src/modules/layouts/layout-sankey.js` lines 40-71): fixed column width;
children are stacked below `y` with `nodeGap` between them, each receiving
its preferred height scaled by the uniform factor
`min(1, available / sum)` where `available = max(height - gaps, minHeight)`. -/
def skPlace : TNode → ℚ → ℚ → ℚ → PNode
  | .mk i d p cs, x, y, h =>
    .mk i d (TNode.size (.mk i d p cs)) x y columnWidth h (x + columnWidth / 2)
      (y + h / 2)
      (skPlaceKids cs
        (skPrefs (max (h - (((TList.toList cs).length : ℚ) - 1) * nodeGap)
            minHeight)
          (TNode.size (.mk i d p cs)) cs)
        (if 0 < (skPrefs (max (h - (((TList.toList cs).length : ℚ) - 1) * nodeGap)
              minHeight)
            (TNode.size (.mk i d p cs)) cs).sum
         then min 1
            ((max (h - (((TList.toList cs).length : ℚ) - 1) * nodeGap) minHeight)
              / (skPrefs (max (h - (((TList.toList cs).length : ℚ) - 1) * nodeGap)
                  minHeight)
                (TNode.size (.mk i d p cs)) cs).sum)
         else 1)
        x y)

/-- The `node.children.forEach((child, index) => …)` loop: place child with
height `childHeights[index] * scale` at the next column, advancing the
cursor by the child's height plus the gap. -/
def skPlaceKids : TList → List ℚ → ℚ → ℚ → ℚ → PList
  | .nil, _, _, _, _ => .nil
  | .cons _ _, [], _, _, _ => .nil
  | .cons c rest, pref :: prefs, scale, x, cursor =>
    .cons (skPlace c (x + columnWidth + columnGap) cursor (pref * scale))
      (skPlaceKids rest prefs scale x (cursor + pref * scale + nodeGap))
end

mutual
/-- The `links` array of the sankey layout: one `(from, to, depth)` per
parent/child pair, pushed before the child subtree's own links. -/
def skLinks : PNode → List (Nat × Nat × Nat)
  | .mk i d _ _ _ _ _ _ _ cs => skLinksList i d cs

def skLinksList : Nat → Nat → PList → List (Nat × Nat × Nat)
  | _, _, .nil => []
  | pid, pdepth, .cons c rest =>
    (pid, c.id, pdepth) :: (skLinks c ++ skLinksList pid pdepth rest)
end

/-- The function `compute(root)` of the sankey layout (`layout-sankey.js` lines 34-82). -/
def sankeyCompute (root : TNode) : LayoutResult :=
  let rootHeight : ℚ := max ((root.size : ℚ) * unitHeight) minHeight
  let placed := skPlace root 0 0 rootHeight
  let nodes := placed.flat
  let maxDepth : Nat := nodes.foldl (fun m n => max m n.depth) 0
  { nodes := nodes
    links := skLinks placed
    boundsWidth := ((maxDepth : ℚ) + 1) * (columnWidth + columnGap)
    boundsHeight := rootHeight
    maxDepth := maxDepth }

/-- C1 counterexample: on the scenario tree (root of subtree-size 3 with two
leaf children) the icicle `compute` gives the root width 36 but its children
widths 12 and 12 — the children's widths sum to 24, not the parent's width
(the discrepancy, a full third of the band, is no floating-point tolerance). -/
theorem icicle_claim_counterexample :
    (icicleCompute scTree).nodes.map
        (fun q => (q.id, q.width, PList.widths q.children))
      = [(1, 36, [12, 12]), (2, 12, []), (3, 12, [])]
      ∧ (12 + 12 : ℚ) ≠ 36 := by
  constructor
  · norm_num [icicleCompute, icPlace, icPlaceKids, scTree, TNode.size,
      TList.sizeSum, PNode.flat, PList.flatList, PList.widths, PNode.id,
      PNode.width, PNode.children, unitWidth, depthHeight]
  · norm_num

theorem sum_scaled : ∀ (l : List ℚ) (w q : ℚ),
    ((l.map (fun s => w * s / q)).sum) = w * l.sum / q
  | [], w, q => by simp
  | a :: rest, w, q => by
    simp [sum_scaled rest w q]
    ring

theorem icPlaceKids_widths_eq : ∀ (cs : TList) (cursor y w : ℚ) (psz : Nat),
    PList.widths (icPlaceKids cs cursor y w psz)
      = (TList.toList cs).map (fun c => w * (TNode.size c : ℚ) / (psz : ℚ))
  | .nil, _, _, _, _ => by simp [icPlaceKids, PList.widths, TList.toList]
  | .cons c rest, cursor, y, w, psz => by
    have hw : (icPlace c cursor y (w * (TNode.size c : ℚ) / (psz : ℚ))).width
        = w * (TNode.size c : ℚ) / (psz : ℚ) := by
      cases c with
      | mk i d p ccs => simp [icPlace, PNode.width]
    simp [icPlaceKids, PList.widths, TList.toList, hw,
      icPlaceKids_widths_eq rest (cursor + w * (TNode.size c : ℚ) / (psz : ℚ)) y w psz]

theorem toList_sizes_sum (cs : TList) :
    ((TList.toList cs).map (fun c => (TNode.size c : ℚ))).sum
      = (TList.sizeSum cs : ℚ) := by
  rw [sizeSum_eq_sum_toList]
  rw [Nat.cast_list_sum]
  rw [List.map_map]
  rfl

mutual
theorem icPlace_width_sum : ∀ (t : TNode) (x y w : ℚ),
    ∀ q ∈ (icPlace t x y w).flat, q.children ≠ PList.nil →
      (PList.widths q.children).sum = q.width * ((q.size : ℚ) - 1) / (q.size : ℚ)
  | .mk i d p cs, x, y, w => by
    intro q hq hne
    rcases (show q = icPlace (.mk i d p cs) x y w
        ∨ q ∈ PList.flatList (icPlaceKids cs x (y + depthHeight) w
            (TNode.size (.mk i d p cs))) by
      rw [show (icPlace (.mk i d p cs) x y w).flat
          = icPlace (.mk i d p cs) x y w
            :: PList.flatList (icPlaceKids cs x (y + depthHeight) w
                (TNode.size (.mk i d p cs))) by
        simp [icPlace, PNode.flat]] at hq
      simpa using hq) with hroot | hsub
    · subst hroot
      rw [show (icPlace (.mk i d p cs) x y w).children
          = icPlaceKids cs x (y + depthHeight) w (TNode.size (.mk i d p cs)) by
        simp [icPlace, PNode.children]]
      rw [icPlaceKids_widths_eq]
      rw [show ∀ cs' : TList, (TList.toList cs').map
          (fun c => w * (TNode.size c : ℚ) / ((TNode.size (.mk i d p cs) : ℚ)))
          = ((TList.toList cs').map (fun c => (TNode.size c : ℚ))).map
              (fun s => w * s / ((TNode.size (.mk i d p cs) : ℚ))) from
        fun cs' => by rw [List.map_map]; rfl]
      rw [sum_scaled, toList_sizes_sum]
      rw [show (icPlace (.mk i d p cs) x y w).width = w by
        simp [icPlace, PNode.width]]
      rw [show (icPlace (.mk i d p cs) x y w).size = TNode.size (.mk i d p cs) by
        simp [icPlace, PNode.size]]
      rw [show ((TNode.size (.mk i d p cs) : ℚ)) - 1 = (TList.sizeSum cs : ℚ) by
        rw [show TNode.size (.mk i d p cs) = 1 + TList.sizeSum cs by
          simp [TNode.size]]
        push_cast
        ring]
    · exact icPlaceKids_width_sum cs x (y + depthHeight) w
        (TNode.size (.mk i d p cs)) q hsub hne

theorem icPlaceKids_width_sum : ∀ (cs : TList) (cursor y w : ℚ) (psz : Nat),
    ∀ q ∈ PList.flatList (icPlaceKids cs cursor y w psz),
      q.children ≠ PList.nil →
      (PList.widths q.children).sum = q.width * ((q.size : ℚ) - 1) / (q.size : ℚ)
  | .nil, cursor, y, w, psz => by
    intro q hq
    simp [icPlaceKids, PList.flatList] at hq
  | .cons c rest, cursor, y, w, psz => by
    intro q hq hne
    rcases (show q ∈ (icPlace c cursor y
          (w * (TNode.size c : ℚ) / (psz : ℚ))).flat
        ∨ q ∈ PList.flatList (icPlaceKids rest
            (cursor + w * (TNode.size c : ℚ) / (psz : ℚ)) y w psz) by
      rw [show PList.flatList (icPlaceKids (.cons c rest) cursor y w psz)
          = (icPlace c cursor y (w * (TNode.size c : ℚ) / (psz : ℚ))).flat
            ++ PList.flatList (icPlaceKids rest
                (cursor + w * (TNode.size c : ℚ) / (psz : ℚ)) y w psz) by
        simp [icPlaceKids, PList.flatList]] at hq
      simpa using hq) with hc | hr
    · exact icPlace_width_sum c cursor y
        (w * (TNode.size c : ℚ) / (psz : ℚ)) q hc hne
    · exact icPlaceKids_width_sum rest
        (cursor + w * (TNode.size c : ℚ) / (psz : ℚ)) y w psz q hr hne
end

/-- C1 (amended): in the icicle layout the widths `compute` assigns to a
non-leaf node's direct children sum to the node's width scaled by
`(size - 1) / size` — the parent's own unit of subtree weight is never
distributed, so the children fill strictly less than the parent's band
(exactly, in rational arithmetic). -/
theorem icicle_child_width_sum (root : TNode) :
    ∀ q ∈ (icicleCompute root).nodes, q.children ≠ PList.nil →
      (PList.widths q.children).sum
        = q.width * ((q.size : ℚ) - 1) / (q.size : ℚ) :=
  fun q hq hne =>
    icPlace_width_sum root 0 0 ((root.size : ℚ) * unitWidth) q hq hne

theorem PNode.self_mem_flat : ∀ q : PNode, q ∈ q.flat
  | .mk i d s x y w h cx cy cs => by simp [PNode.flat]

/-- Witness for `icicle_child_width_sum` at the scenario tree's root. -/
theorem icicle_child_width_sum_witness :
    (PList.widths (icPlace scTree 0 0 ((TNode.size scTree : ℚ) * unitWidth)).children).sum
      = (icPlace scTree 0 0 ((TNode.size scTree : ℚ) * unitWidth)).width
        * (((icPlace scTree 0 0 ((TNode.size scTree : ℚ) * unitWidth)).size : ℚ) - 1)
        / ((icPlace scTree 0 0 ((TNode.size scTree : ℚ) * unitWidth)).size : ℚ) :=
  icicle_child_width_sum scTree
    (icPlace scTree 0 0 ((TNode.size scTree : ℚ) * unitWidth))
    (PNode.self_mem_flat _)
    (by simp [icPlace, icPlaceKids, scTree, PNode.children])

/-- A leaf child of the counterexample root. -/
def cexLeaf (i : Nat) : TNode := .mk i 1 (some 1) .nil

/-- C2 counterexample input: a root with nine leaf children plus one child
(id 11) that itself has two leaf children (ids 12, 13). -/
def cexT : TNode :=
  .mk 1 0 none
    (.cons (cexLeaf 2) (.cons (cexLeaf 3) (.cons (cexLeaf 4) (.cons (cexLeaf 5)
      (.cons (cexLeaf 6) (.cons (cexLeaf 7) (.cons (cexLeaf 8) (.cons (cexLeaf 9)
        (.cons (cexLeaf 10)
          (.cons (.mk 11 1 (some 1)
            (.cons (.mk 12 2 (some 11) .nil) (.cons (.mk 13 2 (some 11) .nil)
              .nil)))
            .nil))))))))))

/-- C2 counterexample: in the sankey `compute` of `cexT`, node 11 is allotted
height 4418/281 (≈15.72) yet its two children get height 6 each, so children
plus the one inter-sibling gap occupy 16 > 4418/281 — the parent band
overflows; and the scaled heights 6 and 2444/281 (≈8.70) are below the
minimum floor height 12. -/
theorem sankey_claim_counterexample :
    (sankeyCompute cexT).nodes.map
        (fun q => (q.id, q.height, PList.heights q.children))
      = [(1, 130, [2444/281, 2444/281, 2444/281, 2444/281, 2444/281, 2444/281,
            2444/281, 2444/281, 2444/281, 4418/281]),
         (2, 2444/281, []), (3, 2444/281, []), (4, 2444/281, []),
         (5, 2444/281, []), (6, 2444/281, []), (7, 2444/281, []),
         (8, 2444/281, []), (9, 2444/281, []), (10, 2444/281, []),
         (11, 4418/281, [6, 6]), (12, 6, []), (13, 6, [])]
      ∧ ¬((6 : ℚ) + 6 + nodeGap ≤ 4418/281)
      ∧ ¬(minHeight ≤ (2444/281 : ℚ)) := by
  refine ⟨?_, by norm_num [nodeGap], by norm_num [minHeight]⟩
  norm_num [sankeyCompute, skPlace, skPlaceKids, skPrefs, cexT, cexLeaf,
    TNode.size, TList.sizeSum, TList.toList, PNode.flat, PList.flatList,
    PList.heights, PNode.id, PNode.height, PNode.children, unitHeight,
    minHeight, nodeGap, columnWidth, columnGap, min_def, max_def]

theorem skPlace_height : ∀ (t : TNode) (x y h : ℚ),
    (skPlace t x y h).height = h
  | .mk i d p cs, x, y, h => by simp [skPlace, PNode.height]

theorem heights_skPlaceKids : ∀ (cs : TList) (prefs : List ℚ)
    (scale x cursor : ℚ), prefs.length = (TList.toList cs).length →
    PList.heights (skPlaceKids cs prefs scale x cursor)
      = prefs.map (· * scale)
  | .nil, [], scale, x, cursor => by
    intro _
    simp [skPlaceKids, PList.heights]
  | .nil, p :: prefs, scale, x, cursor => by
    intro h
    simp [TList.toList] at h
  | .cons c rest, [], scale, x, cursor => by
    intro h
    simp [TList.toList] at h
  | .cons c rest, pref :: prefs, scale, x, cursor => by
    intro h
    simp only [TList.toList, List.length_cons, Nat.add_right_cancel_iff] at h
    simp [skPlaceKids, PList.heights, skPlace_height,
      heights_skPlaceKids rest prefs scale x (cursor + pref * scale + nodeGap) h]

theorem plength_eq_heights_length : ∀ pl : PList,
    pl.plength = pl.heights.length
  | .nil => by simp [PList.plength, PList.heights]
  | .cons c rest => by
    simp [PList.plength, PList.heights, plength_eq_heights_length rest]

theorem plength_skPlaceKids : ∀ (cs : TList) (prefs : List ℚ)
    (scale x cursor : ℚ), prefs.length = (TList.toList cs).length →
    PList.plength (skPlaceKids cs prefs scale x cursor)
      = (TList.toList cs).length := by
  intro cs prefs scale x cursor h
  have : (PList.heights (skPlaceKids cs prefs scale x cursor)).length
      = prefs.length := by
    rw [heights_skPlaceKids cs prefs scale x cursor h]
    simp
  rw [← h, plength_eq_heights_length]
  exact this

theorem sum_map_mul_right' : ∀ (l : List ℚ) (s : ℚ),
    (l.map (· * s)).sum = l.sum * s
  | [], s => by simp
  | a :: rest, s => by
    simp [sum_map_mul_right' rest s]
    ring

theorem skPrefs_ge (a : ℚ) (p : Nat) (cs : TList) :
    ∀ v ∈ skPrefs a p cs, minHeight ≤ v := by
  intro v hv
  obtain ⟨c, _, rfl⟩ := List.mem_map.mp hv
  exact le_max_left _ _

theorem skPrefs_length (a : ℚ) (p : Nat) (cs : TList) :
    (skPrefs a p cs).length = (TList.toList cs).length := by
  simp [skPrefs]

theorem sum_pos_of_ge (l : List ℚ) (hl : l ≠ [])
    (h : ∀ v ∈ l, minHeight ≤ v) : 0 < l.sum := by
  cases l with
  | nil => exact absurd rfl hl
  | cons a rest =>
    have ha : minHeight ≤ a := h a (List.mem_cons_self a rest)
    have hrest : 0 ≤ rest.sum := by
      apply List.sum_nonneg
      intro v hv
      have := h v (List.mem_cons_of_mem a hv)
      rw [minHeight] at this
      linarith
    rw [List.sum_cons, minHeight] at *
    linarith

theorem mul_min_one_div_le (S A : ℚ) (hS : 0 < S) : S * min 1 (A / S) ≤ A := by
  rcases le_total 1 (A / S) with h | h
  · rw [min_eq_left h]
    have : S ≤ A := by rwa [le_div_iff hS, one_mul] at h
    linarith
  · rw [min_eq_right h]
    rw [mul_div_cancel₀ A (ne_of_gt hS)]

theorem toList_ne_nil_of_ne (cs : TList) (h : cs ≠ TList.nil) :
    TList.toList cs ≠ [] := by
  cases cs with
  | nil => exact absurd rfl h
  | cons c rest => simp [TList.toList]

mutual
theorem skPlace_height_bound : ∀ (t : TNode) (x y h : ℚ),
    ∀ q ∈ (skPlace t x y h).flat, q.children ≠ PList.nil →
      (PList.heights q.children).sum
        ≤ max (q.height - ((PList.plength q.children : ℚ) - 1) * nodeGap)
            minHeight
  | .mk i d p cs, x, y, h => by
    intro q hq hne
    rcases (show q = skPlace (.mk i d p cs) x y h
        ∨ q ∈ PList.flatList (skPlace (.mk i d p cs) x y h).children by
      rw [show (skPlace (.mk i d p cs) x y h).flat
          = skPlace (.mk i d p cs) x y h
            :: PList.flatList (skPlace (.mk i d p cs) x y h).children by
        cases hpl : skPlace (.mk i d p cs) x y h with
        | mk i' d' s' x' y' w' h' cx' cy' cs' =>
          simp [PNode.flat, PNode.children]] at hq
      simpa using hq) with hroot | hsub
    · subst hroot
      have hqc : (skPlace (.mk i d p cs) x y h).children
          = skPlaceKids cs
              (skPrefs
                (max (h - (((TList.toList cs).length : ℚ) - 1) * nodeGap)
                  minHeight)
                (TNode.size (.mk i d p cs)) cs)
              (if 0 < (skPrefs
                    (max (h - (((TList.toList cs).length : ℚ) - 1) * nodeGap)
                      minHeight)
                    (TNode.size (.mk i d p cs)) cs).sum
               then min 1
                  ((max (h - (((TList.toList cs).length : ℚ) - 1) * nodeGap)
                      minHeight)
                    / (skPrefs
                        (max (h - (((TList.toList cs).length : ℚ) - 1) * nodeGap)
                          minHeight)
                        (TNode.size (.mk i d p cs)) cs).sum)
               else 1) x y := by
        simp [skPlace, PNode.children]
      set A : ℚ := max (h - (((TList.toList cs).length : ℚ) - 1) * nodeGap)
        minHeight with hA
      set prefs : List ℚ := skPrefs A (TNode.size (.mk i d p cs)) cs with hprefs
      have hcs : cs ≠ TList.nil := by
        intro hnil
        rw [hqc, hnil] at hne
        simp only [hprefs, hnil] at hne
        exact hne (by simp [skPlaceKids, skPrefs, TList.toList])
      have hlen : prefs.length = (TList.toList cs).length :=
        skPrefs_length A (TNode.size (.mk i d p cs)) cs
      have hprefs_ne : prefs ≠ [] := by
        intro hnil
        have := toList_ne_nil_of_ne cs hcs
        rw [← List.length_pos] at this
        rw [hnil] at hlen
        simp at hlen
        omega
      have hSpos : 0 < prefs.sum :=
        sum_pos_of_ge prefs hprefs_ne
          (skPrefs_ge A (TNode.size (.mk i d p cs)) cs)
      rw [hqc]
      rw [if_pos hSpos]
      rw [heights_skPlaceKids cs prefs (min 1 (A / prefs.sum)) x y hlen]
      rw [sum_map_mul_right']
      rw [plength_skPlaceKids cs prefs (min 1 (A / prefs.sum)) x y hlen]
      rw [skPlace_height]
      calc prefs.sum * min 1 (A / prefs.sum) ≤ A :=
            mul_min_one_div_le prefs.sum A hSpos
        _ = max (h - (((TList.toList cs).length : ℚ) - 1) * nodeGap)
            minHeight := hA
    · have hqc : (skPlace (.mk i d p cs) x y h).children
          = skPlaceKids cs
              (skPrefs
                (max (h - (((TList.toList cs).length : ℚ) - 1) * nodeGap)
                  minHeight)
                (TNode.size (.mk i d p cs)) cs)
              (if 0 < (skPrefs
                    (max (h - (((TList.toList cs).length : ℚ) - 1) * nodeGap)
                      minHeight)
                    (TNode.size (.mk i d p cs)) cs).sum
               then min 1
                  ((max (h - (((TList.toList cs).length : ℚ) - 1) * nodeGap)
                      minHeight)
                    / (skPrefs
                        (max (h - (((TList.toList cs).length : ℚ) - 1) * nodeGap)
                          minHeight)
                        (TNode.size (.mk i d p cs)) cs).sum)
               else 1) x y := by
        simp [skPlace, PNode.children]
      rw [hqc] at hsub
      exact skPlaceKids_height_bound cs _ _ x y q hsub hne

theorem skPlaceKids_height_bound : ∀ (cs : TList) (prefs : List ℚ)
    (scale x cursor : ℚ),
    ∀ q ∈ PList.flatList (skPlaceKids cs prefs scale x cursor),
      q.children ≠ PList.nil →
      (PList.heights q.children).sum
        ≤ max (q.height - ((PList.plength q.children : ℚ) - 1) * nodeGap)
            minHeight
  | .nil, prefs, scale, x, cursor => by
    intro q hq
    simp [skPlaceKids, PList.flatList] at hq
  | .cons c rest, [], scale, x, cursor => by
    intro q hq
    simp [skPlaceKids, PList.flatList] at hq
  | .cons c rest, pref :: prefs, scale, x, cursor => by
    intro q hq hne
    rcases (show q ∈ (skPlace c (x + columnWidth + columnGap) cursor
          (pref * scale)).flat
        ∨ q ∈ PList.flatList (skPlaceKids rest prefs scale x
            (cursor + pref * scale + nodeGap)) by
      rw [show PList.flatList (skPlaceKids (.cons c rest) (pref :: prefs)
            scale x cursor)
          = (skPlace c (x + columnWidth + columnGap) cursor
              (pref * scale)).flat
            ++ PList.flatList (skPlaceKids rest prefs scale x
                (cursor + pref * scale + nodeGap)) by
        simp [skPlaceKids, PList.flatList]] at hq
      simpa using hq) with hc | hr
    · exact skPlace_height_bound c (x + columnWidth + columnGap) cursor
        (pref * scale) q hc hne
    · exact skPlaceKids_height_bound rest prefs scale x
        (cursor + pref * scale + nodeGap) q hr hne
end

/-- C2 (amended): in the sankey layout the heights `compute` assigns to a
non-leaf node's children sum to at most
`max(parent height − (childCount − 1) · nodeGap, minHeight)` — i.e. to the
"available" space, which equals the claimed `parent height − gaps` only when
the parent's height is at least `minHeight + gaps`; when the parent's band is
smaller than that floor the children (plus gaps) can overflow it, and the
uniform scale-down can push child heights below the floor (see the
counterexample).  Only the pre-scale preferred heights `skPrefs` always
respect the floor. -/
theorem sankey_children_height_bound (root : TNode) :
    (∀ q ∈ (sankeyCompute root).nodes, q.children ≠ PList.nil →
        (PList.heights q.children).sum
          ≤ max (q.height - ((PList.plength q.children : ℚ) - 1) * nodeGap)
              minHeight)
      ∧ (∀ (a : ℚ) (p : Nat) (cs : TList), ∀ v ∈ skPrefs a p cs,
          minHeight ≤ v) :=
  ⟨fun q hq hne => skPlace_height_bound root 0 0
      (max ((root.size : ℚ) * unitHeight) minHeight) q hq hne,
   fun a p cs => skPrefs_ge a p cs⟩

/-- Witness for `sankey_children_height_bound` at the scenario tree's root. -/
theorem sankey_children_height_bound_witness :
    (PList.heights (skPlace scTree 0 0
        (max ((TNode.size scTree : ℚ) * unitHeight) minHeight)).children).sum
      ≤ max ((skPlace scTree 0 0
            (max ((TNode.size scTree : ℚ) * unitHeight) minHeight)).height
          - ((PList.plength (skPlace scTree 0 0
              (max ((TNode.size scTree : ℚ) * unitHeight) minHeight)).children
                : ℚ) - 1) * nodeGap)
        minHeight :=
  (sankey_children_height_bound scTree).1
    (skPlace scTree 0 0 (max ((TNode.size scTree : ℚ) * unitHeight) minHeight))
    (PNode.self_mem_flat _)
    (by
      norm_num [skPlace, skPlaceKids, skPrefs, scTree, PNode.children,
        TList.toList, TNode.size, TList.sizeSum, minHeight, unitHeight,
        nodeGap, min_def, max_def]
      intro hfalse
      exact PList.noConfusion hfalse)

/-! ## Round-trip (C9) -/

/-- C9: building a tree from an item map, computing the derived metrics, and
producing the visible tree under an empty collapsed set yields the very tree
that was built — so any layout `compute` (being a pure function of the
visible tree; in particular the two embedded tree layouts) produces an
identical result (same nodes with identical geometry, same links, same
bounds) on the pipeline's visible tree as on the full tree. -/
theorem layout_roundtrip (fuel rootId : Nat) (items : List (Nat × Item))
    (t : TNode) (st' : St)
    (hb : buildTree fuel rootId { nodes := items } = (some t, st')) :
    (buildVisibleTree t (computeDescendants t st').2).1 = t
      ∧ (∀ f : TNode → LayoutResult,
          f (buildVisibleTree t (computeDescendants t st').2).1 = f t)
      ∧ icicleCompute (buildVisibleTree t (computeDescendants t st').2).1
          = icicleCompute t
      ∧ sankeyCompute (buildVisibleTree t (computeDescendants t st').2).1
          = sankeyCompute t := by
  have hbt : buildTreeAux fuel rootId { nodes := items } 0 none
      = (some t, st') := hb
  have hc1 : st'.collapsed = [] := by
    have hfr := (buildTreeAux_frame fuel rootId { nodes := items } 0 none).2
    rw [hbt] at hfr
    simpa using hfr
  have hc2 : (computeDescendants t st').2.collapsed = [] := by
    rw [(computeDescendants_frame t st').2.2.2, hc1]
  have hvis := buildVisibleTree_empty_collapsed t (computeDescendants t st').2 hc2
  exact ⟨hvis, fun f => by rw [hvis], by rw [hvis], by rw [hvis]⟩

/-- Witness for `layout_roundtrip` on the scenario item map. -/
theorem layout_roundtrip_witness :
    (buildVisibleTree scTree (computeDescendants scTree (buildTree 5 1 scSt).2).2).1
      = scTree :=
  (layout_roundtrip 5 1 scSt.nodes scTree (buildTree 5 1 scSt).2
    (by
      have h1 : (buildTree 5 1 scSt).1 = some scTree := by
        simp [buildTree, buildTreeAux, buildKids, scSt, scTree, List.lookup]
      have h2 : buildTree 5 1 { nodes := scSt.nodes }
          = ((buildTree 5 1 scSt).1, (buildTree 5 1 scSt).2) := rfl
      rw [h2, h1])).1

/-! ## Bounded-concurrency item fetch (C7, `fetchItemsByIds` in
`src/modules/data.js` lines 40-78).

The async pool is modelled as a small-step executor.  A pending fetch is a
pair `(id, oracle id)` in the in-flight list, where the oracle
`Nat → Option Item` predetermines each fetch's outcome (`none` models a
rejected promise — caught by the `.catch` and merely logged — or a `null`
item).  `pump` refills the in-flight list from the queue while below the
concurrency bound, skipping ids already in the result map.  A scheduling
sequence chooses which in-flight fetch settles next (`Promise.race` makes
this order arbitrary); every schedule is quantified over.  Completion
removes the task and, on success, stores the item keyed by its id. -/

structure PoolState where
  queue : List Nat
  inflight : List (Nat × Option Item)
  items : List (Nat × Item)
  fetched : Nat

/-- The `pump` loop: `while (queue.length && inflight.size < concurrency)`
start the next fetch unless its id is already in the result map. -/
def pump (conc : Nat) (oracle : Nat → Option Item) :
    List Nat → List (Nat × Option Item) → List (Nat × Item)
      → List Nat × List (Nat × Option Item)
  | [], infl, _ => ([], infl)
  | id :: rest, infl, items =>
    if infl.length < conc then
      if (items.lookup id).isSome then pump conc oracle rest infl items
      else pump conc oracle rest (infl ++ [(id, oracle id)]) items
    else (id :: rest, infl)

/-- Pick which in-flight fetch settles: the schedule head modulo the
in-flight count (with a singleton or empty in-flight there is no choice and
no schedule is consumed). -/
def pick (sched : List Nat) (len : Nat) : Nat × List Nat :=
  if len ≤ 1 then (0, sched)
  else
    match sched with
    | [] => (0, [])
    | c :: rest => (c % len, rest)

/-- Settle the in-flight fetch at index `i`: the `.finally` removes it from
the in-flight set; the `.then` stores a successful item keyed by its id and
bumps the progress counter; a failure (`none`) only logs. -/
def completeAt (st : PoolState) (i : Nat) : PoolState :=
  let task := st.inflight.getD i (0, none)
  { st with
    inflight := st.inflight.eraseIdx i
    items := match task.2 with
      | some itm => (itm.id, itm) :: st.items
      | none => st.items
    fetched := match task.2 with
      | some _ => st.fetched + 1
      | none => st.fetched }

/-- The `while (inflight.size) { await Promise.race(inflight); await pump(); }`
loop, driven by the schedule; `fuel` bounds the number of settlements (each
step settles exactly one fetch, so `ids.length + 1` always suffices). -/
def runPool (conc : Nat) (oracle : Nat → Option Item) :
    Nat → List Nat → PoolState → PoolState
  | 0, _, st => st
  | fuel + 1, sched, st =>
    if st.inflight.length = 0 then st
    else
      let pr := pick sched st.inflight.length
      let st' := completeAt st pr.1
      let pq := pump conc oracle st'.queue st'.inflight st'.items
      runPool conc oracle fuel pr.2 { st' with queue := pq.1, inflight := pq.2 }

/-- The whole bounded-concurrency fetch of a work queue `ids`: initial pump,
then the settle/refill loop until the in-flight set drains. -/
def fetchPool (conc : Nat) (oracle : Nat → Option Item) (sched : List Nat)
    (ids : List Nat) : PoolState :=
  let pq := pump conc oracle ids [] []
  runPool conc oracle (ids.length + 1) sched
    { queue := pq.1, inflight := pq.2, items := [], fetched := 0 }

/-- The exported `fetchItemsByIds` fixes the concurrency at 12 and returns the item map. -/
def fetchItemsByIds (oracle : Nat → Option Item) (sched : List Nat)
    (ids : List Nat) : List (Nat × Item) :=
  (fetchPool 12 oracle sched ids).items

def itemB : Item := { id := 2 }

def itemC : Item := { id := 3 }

/-- The scenario oracle: fetching A (id 1) fails; B (id 2) and C (id 3)
succeed. -/
def oracleABC : Nat → Option Item :=
  fun id => if id = 2 then some itemB else if id = 3 then some itemC else none

set_option maxHeartbeats 1000000 in
theorem fetchPool2_aux (sched : List Nat) :
    (fetchPool 2 oracleABC sched [1, 2, 3]).items.lookup 2 = some itemB
      ∧ (fetchPool 2 oracleABC sched [1, 2, 3]).items.lookup 3 = some itemC
      ∧ (fetchPool 2 oracleABC sched [1, 2, 3]).items.lookup 1 = none
      ∧ (fetchPool 2 oracleABC sched [1, 2, 3]).queue = []
      ∧ (fetchPool 2 oracleABC sched [1, 2, 3]).inflight = [] := by
  rcases sched with _ | ⟨c1, sched⟩
  · simp [fetchPool, runPool, pump, pick, completeAt, oracleABC, itemB, itemC,
      List.lookup]
  · rcases sched with _ | ⟨c2, sched⟩
    · rcases (show c1 % 2 = 0 ∨ c1 % 2 = 1 by omega) with h1 | h1 <;>
        simp [fetchPool, runPool, pump, pick, completeAt, oracleABC, itemB,
          itemC, List.lookup, h1]
    · rcases (show c1 % 2 = 0 ∨ c1 % 2 = 1 by omega) with h1 | h1 <;>
        rcases (show c2 % 2 = 0 ∨ c2 % 2 = 1 by omega) with h2 | h2 <;>
        simp [fetchPool, runPool, pump, pick, completeAt, oracleABC, itemB,
          itemC, List.lookup, h1, h2]

set_option maxHeartbeats 1000000 in
theorem fetchPool12_aux (sched : List Nat) :
    (fetchItemsByIds oracleABC sched [1, 2, 3]).lookup 2 = some itemB
      ∧ (fetchItemsByIds oracleABC sched [1, 2, 3]).lookup 3 = some itemC
      ∧ (fetchItemsByIds oracleABC sched [1, 2, 3]).lookup 1 = none := by
  rcases sched with _ | ⟨c1, sched⟩
  · simp [fetchItemsByIds, fetchPool, runPool, pump, pick, completeAt,
      oracleABC, itemB, itemC, List.lookup]
  · rcases sched with _ | ⟨c2, sched⟩
    · rcases (show c1 % 3 = 0 ∨ c1 % 3 = 1 ∨ c1 % 3 = 2 by omega)
          with h1 | h1 | h1 <;>
        simp [fetchItemsByIds, fetchPool, runPool, pump, pick, completeAt,
          oracleABC, itemB, itemC, List.lookup, h1]
    · rcases (show c1 % 3 = 0 ∨ c1 % 3 = 1 ∨ c1 % 3 = 2 by omega)
          with h1 | h1 | h1 <;>
        rcases (show c2 % 2 = 0 ∨ c2 % 2 = 1 by omega) with h2 | h2 <;>
        simp [fetchItemsByIds, fetchPool, runPool, pump, pick, completeAt,
          oracleABC, itemB, itemC, List.lookup, h1, h2]

/-- C7: for the work queue [A, B, C] with concurrency 2 where fetching A
fails and B and C succeed, under EVERY settlement schedule the operation
drains both queue and in-flight set (completes normally) and the returned
map contains B and C but not A; the same holds for `fetchItemsByIds` (the
source's concurrency-12 instance). -/
theorem fetchPool_scenario (sched : List Nat) :
    (fetchPool 2 oracleABC sched [1, 2, 3]).items.lookup 2 = some itemB
      ∧ (fetchPool 2 oracleABC sched [1, 2, 3]).items.lookup 3 = some itemC
      ∧ (fetchPool 2 oracleABC sched [1, 2, 3]).items.lookup 1 = none
      ∧ (fetchPool 2 oracleABC sched [1, 2, 3]).queue = []
      ∧ (fetchPool 2 oracleABC sched [1, 2, 3]).inflight = []
      ∧ (fetchItemsByIds oracleABC sched [1, 2, 3]).lookup 2 = some itemB
      ∧ (fetchItemsByIds oracleABC sched [1, 2, 3]).lookup 3 = some itemC
      ∧ (fetchItemsByIds oracleABC sched [1, 2, 3]).lookup 1 = none := by
  obtain ⟨a1, a2, a3, a4, a5⟩ := fetchPool2_aux sched
  obtain ⟨b1, b2, b3⟩ := fetchPool12_aux sched
  exact ⟨a1, a2, a3, a4, a5, b1, b2, b3⟩
